import Mathlib

/-!
Verification of the flashcluster repository: a shallow embedding, in Lean 4,
of the approximate-ultrametric pipeline (AFN diameter estimation, LSH-based
gamma-spanner, Kruskal MST extraction, single-linkage reconstruction, RMQ
queries) together with proofs of the specified properties.

Numeric conventions: the Rust source computes with `f32`.  The embedding uses
exact rationals (`ℚ`).  Euclidean distances (`dist` in `points.rs`, a square
root) are represented throughout in squared form (`dist2` in `points.rs`),
which is rational; every comparison the source performs on plain distances is
translated to the equivalent comparison on squared distances (the square root
is monotone on nonnegative numbers), and every quantity the source derives
from a plain distance is carried in squared form.  Definitions carry doc
comments pointing at the source location they embed.
-/

namespace Flashcluster

/-- Squared l2 distance between two points, embedding `dist2` from
`src/points.rs` (a fold of coordinatewise squared differences over the two
rows, which have equal length for rows of an `(n, d)` matrix). -/
def dist2 (p q : List ℚ) : ℚ :=
  (List.zipWith (fun a b => (a - b) ^ 2) p q).sum

theorem dist2_nonneg (p q : List ℚ) : 0 ≤ dist2 p q := by
  induction p generalizing q with
  | nil => simp [dist2]
  | cons a p ih =>
    cases q with
    | nil => simp [dist2]
    | cons b q =>
      have h1 : 0 ≤ (a - b) ^ 2 := sq_nonneg _
      have h2 := ih q
      simp only [dist2, List.zipWith_cons_cons, List.sum_cons] at *
      linarith

theorem dist2_comm (p q : List ℚ) : dist2 p q = dist2 q p := by
  induction p generalizing q with
  | nil => cases q <;> simp [dist2]
  | cons a p ih =>
    cases q with
    | nil => simp [dist2]
    | cons b q =>
      have h2 := ih q
      simp only [dist2, List.zipWith_cons_cons, List.sum_cons] at *
      rw [h2]; ring_nf

theorem dist2_self (p : List ℚ) : dist2 p p = 0 := by
  induction p with
  | nil => rfl
  | cons a p ih =>
    simp only [dist2, List.zipWith_cons_cons, List.sum_cons] at ih ⊢
    rw [ih]; ring

/-- Doubled triangle inequality for squared Euclidean distance, over rows of
equal length: `dist2 p r ≤ 2 * dist2 p q + 2 * dist2 q r`.  This is the
squared form of the plain triangle inequality, and it is the only form of the
triangle inequality the diameter-estimation proof needs. -/
theorem dist2_triangle_doubled (p q r : List ℚ)
    (hpq : p.length = q.length) (hqr : q.length = r.length) :
    dist2 p r ≤ 2 * dist2 p q + 2 * dist2 q r := by
  induction p generalizing q r with
  | nil =>
    cases q with
    | nil =>
      cases r with
      | nil => simp [dist2]
      | cons c r => simp at hqr
    | cons b q => simp at hpq
  | cons a p ih =>
    cases q with
    | nil => simp at hpq
    | cons b q =>
      cases r with
      | nil => simp at hqr
      | cons c r =>
        simp only [List.length_cons, Nat.succ.injEq] at hpq hqr
        have hco : (a - c) ^ 2 ≤ 2 * (a - b) ^ 2 + 2 * (b - c) ^ 2 := by
          nlinarith [sq_nonneg (a - 2 * b + c)]
        have hrec := ih q r hpq hqr
        simp only [dist2, List.zipWith_cons_cons, List.sum_cons] at *
        linarith

/-- Selection of the last element maximising a rational key, embedding the
semantics of Rust's `Iterator::max_by_key` (and of `Iterator::max` when the
key is the identity): `none` on an empty iterator, and when several elements
are equally maximal the last one is returned. -/
def max_by_key {α : Type} (key : α → ℚ) : List α → Option α
  | [] => none
  | x :: xs =>
    match max_by_key key xs with
    | none => some x
    | some m => if key x ≤ key m then some m else some x

theorem max_by_key_isSome {α : Type} (key : α → ℚ) (l : List α) (h : l ≠ []) :
    (max_by_key key l).isSome := by
  cases l with
  | nil => exact absurd rfl h
  | cons x xs =>
    simp only [max_by_key]
    cases max_by_key key xs with
    | none => rfl
    | some m => by_cases hle : key x ≤ key m <;> simp [hle]

theorem max_by_key_mem {α : Type} (key : α → ℚ) (l : List α) (m : α)
    (h : max_by_key key l = some m) : m ∈ l := by
  induction l with
  | nil => simp [max_by_key] at h
  | cons x xs ih =>
    simp only [max_by_key] at h
    cases hx : max_by_key key xs with
    | none => rw [hx] at h; simp at h; simp [h]
    | some m' =>
      rw [hx] at h
      by_cases hle : key x ≤ key m'
      · simp [hle] at h; subst h; exact List.mem_cons_of_mem _ (ih hx)
      · simp [hle] at h; simp [h]

theorem max_by_key_le {α : Type} (key : α → ℚ) :
    ∀ (l : List α) (m : α), max_by_key key l = some m → ∀ y ∈ l, key y ≤ key m := by
  intro l
  induction l with
  | nil => intro m h; simp [max_by_key] at h
  | cons x xs ih =>
    intro m h y hy
    simp only [max_by_key] at h
    cases hx : max_by_key key xs with
    | none =>
      rw [hx] at h
      injection h with h
      have hxs : xs = [] := by
        cases xs with
        | nil => rfl
        | cons z zs =>
          have hs := max_by_key_isSome key (z :: zs) (by simp)
          rw [hx] at hs; simp at hs
      subst hxs
      simp only [List.mem_singleton] at hy
      rw [hy, ← h]
    | some m' =>
      rw [hx] at h
      replace h : (if key x ≤ key m' then some m' else some x) = some m := h
      by_cases hle : key x ≤ key m'
      · rw [if_pos hle] at h
        injection h with h
        subst h
        rcases List.mem_cons.mp hy with hy | hy
        · rw [hy]; exact hle
        · exact ih _ hx y hy
      · rw [if_neg hle] at h
        injection h with h
        subst h
        rcases List.mem_cons.mp hy with hy | hy
        · rw [hy]
        · exact le_trans (ih _ hx y hy) (le_of_not_le hle)

/-- Squared-form embedding of `estimate_diameter` from `src/afn/mod.rs`: take
the point at index 0 (a row access which fails on an empty set, modelled as
`none`), find the point `p1` farthest from it by brute force (`max_by_key`,
last maximiser, like Rust's `max_by_key`), find the largest distance from
`p1` by brute force, and return twice that distance — here in squared form,
so the source's `2.0 * apx` becomes `4 * apx2`, and both `max` scans compare
squared distances, which orders points exactly as the source's plain
distances do. -/
def estimate_diameter_sq (points : List (List ℚ)) : Option ℚ :=
  match points with
  | [] => none
  | p0 :: _ =>
    match max_by_key (dist2 p0) points with
    | none => none
    | some p1 =>
      match max_by_key (dist2 p1) points with
      | none => none
      | some pm => some (4 * dist2 p1 pm)

/-- Squared true diameter of a point set: the maximum of `dist2 p q` over all
ordered pairs of rows, `none` on the empty set.  This is the reference value
(`true_diameter` squared) that the specification's diameter bound compares
`estimate_diameter` against. -/
def true_diameter_sq (points : List (List ℚ)) : Option ℚ :=
  max_by_key id ((points.map (fun p => points.map (dist2 p))).flatten)

theorem true_diameter_sq_mem_flatten (points : List (List ℚ)) (p q : List ℚ)
    (hp : p ∈ points) (hq : q ∈ points) :
    dist2 p q ∈ (points.map (fun p => points.map (dist2 p))).flatten := by
  rw [List.mem_flatten]
  exact ⟨points.map (dist2 p), List.mem_map_of_mem _ hp, List.mem_map_of_mem _ hq⟩

/-- C4.  For every non-empty point set whose rows all have the common
dimension `d`, `estimate_diameter` succeeds and its result is bounded on both
sides by the true diameter: in squared form, `trueDiam² ≤ estimate² ≤
4 * trueDiam²`, i.e. `trueDiam ≤ estimate ≤ 2 * trueDiam`.  The estimate is
computed exactly as the source does: point 0, its brute-forced farthest point
`p1`, the brute-forced farthest distance from `p1`, doubled.  Determinism
holds because `estimate_diameter_sq` is a pure function of its input. -/
theorem estimate_diameter_two_approx (points : List (List ℚ)) (d : ℕ)
    (hne : points ≠ []) (hd : ∀ p ∈ points, p.length = d) :
    ∃ est t, estimate_diameter_sq points = some est ∧
      true_diameter_sq points = some t ∧ t ≤ est ∧ est ≤ 4 * t := by
  cases points with
  | nil => exact absurd rfl hne
  | cons p0 rest =>
    have hne' : p0 :: rest ≠ [] := by simp
    obtain ⟨p1, hp1⟩ := Option.isSome_iff_exists.mp (max_by_key_isSome (dist2 p0) _ hne')
    obtain ⟨pm, hpm⟩ := Option.isSome_iff_exists.mp (max_by_key_isSome (dist2 p1) _ hne')
    have hp1mem : p1 ∈ p0 :: rest := max_by_key_mem _ _ _ hp1
    have hpmmem : pm ∈ p0 :: rest := max_by_key_mem _ _ _ hpm
    have hflat : (((p0 :: rest).map (fun p => (p0 :: rest).map (dist2 p))).flatten) ≠ [] := by
      intro hcon
      have := true_diameter_sq_mem_flatten (p0 :: rest) p0 p0 (by simp) (by simp)
      rw [hcon] at this; simp at this
    obtain ⟨t, ht⟩ := Option.isSome_iff_exists.mp (max_by_key_isSome id _ hflat)
    have htmem := max_by_key_mem id _ _ ht
    have htle := max_by_key_le id _ _ ht
    rw [List.mem_flatten] at htmem
    obtain ⟨row, hrow, htrow⟩ := htmem
    rw [List.mem_map] at hrow
    obtain ⟨a, ha, harow⟩ := hrow
    subst harow
    rw [List.mem_map] at htrow
    obtain ⟨b, hb, htab⟩ := htrow
    refine ⟨4 * dist2 p1 pm, t, ?_, ?_, ?_, ?_⟩
    · simp only [estimate_diameter_sq, hp1, hpm]
    · simp only [true_diameter_sq, ht]
    · have htri : dist2 a b ≤ 2 * dist2 a p1 + 2 * dist2 p1 b := by
        refine dist2_triangle_doubled a p1 b ?_ ?_
        · rw [hd a ha, hd p1 hp1mem]
        · rw [hd p1 hp1mem, hd b hb]
      have hap1 : dist2 p1 a ≤ dist2 p1 pm := max_by_key_le (dist2 p1) _ _ hpm a ha
      have hbp1 : dist2 p1 b ≤ dist2 p1 pm := max_by_key_le (dist2 p1) _ _ hpm b hb
      rw [dist2_comm p1 a] at hap1
      rw [← htab]
      linarith
    · have h1 : dist2 p1 pm ≤ t := by
        have := htle (dist2 p1 pm) (true_diameter_sq_mem_flatten (p0 :: rest) p1 pm hp1mem hpmmem)
        simpa using this
      linarith

/-- Witness for C4 at the concrete two-point set `{(0), (1)}` in dimension 1:
both maxima evaluate, the squared estimate is `4` and the squared true
diameter is `1`, so the bounds hold with room to spare. -/
theorem estimate_diameter_two_approx_witness :
    ∃ est t, estimate_diameter_sq [[0], [1]] = some est ∧
      true_diameter_sq [[0], [1]] = some t ∧ t ≤ est ∧ est ≤ 4 * t :=
  estimate_diameter_two_approx [[0], [1]] 1 (by decide)
    (by intro p hp; simp at hp; rcases hp with h | h <;> simp [h])

/-- Weighted undirected edge, embedding `Edge(pub usize, pub usize, pub f32)`
from `src/spanning_tree/mod.rs`; field `w` carries the weight as a rational
(in the spanner embedding it carries the squared Euclidean distance). -/
structure Edge where
  u : Nat
  v : Nat
  w : ℚ
  deriving DecidableEq, Repr

/-- Modelled from the spec: the `rmq` module (`src/ultrametric/rmq.rs`,
declared by `mod rmq;` in `src/ultrametric/mod.rs`) is not present under
`src/`.  Following §4.7, `get_max` over the half-open range `[lo, hi)` of the
fixed weight array returns the maximum of that sub-range, and is a defined
failure (`none`) on an empty range. -/
def rmq_get_max (weights : List ℚ) (lo hi : Nat) : Option ℚ :=
  max_by_key id ((weights.drop lo).take (hi - lo))

/-- The `Ultrametric` structure from `src/ultrametric/mod.rs`: a position
permutation `id_to_pos` plus the RMQ structure, the latter represented by the
gap-weight array it was preprocessed from (§4.7 makes `get_max` a pure
function of that array). -/
structure Ultrametric where
  id_to_pos : List Nat
  weights : List ℚ
  deriving DecidableEq, Repr

/-- Embedding of `Ultrametric::dist` (`src/ultrametric/mod.rs`): return `0`
when `i == j`; otherwise map both ids through `id_to_pos` (an out-of-range
index panics, modelled as `none`), order the two positions, and query the RMQ
over the half-open range between them (`unwrap` of an empty-range query
panics, modelled as `none`). -/
def Ultrametric.dist (um : Ultrametric) (i j : Nat) : Option ℚ :=
  if i = j then some 0
  else
    match um.id_to_pos[i]?, um.id_to_pos[j]? with
    | some pi, some pj => rmq_get_max um.weights (min pi pj) (max pi pj)
    | _, _ => none

theorem um_dist_diag (um : Ultrametric) (i : Nat) : um.dist i i = some 0 := by
  simp [Ultrametric.dist]

theorem um_dist_comm (um : Ultrametric) (i j : Nat) : um.dist i j = um.dist j i := by
  by_cases hij : i = j
  · subst hij; rfl
  · have hji : j ≠ i := fun h => hij h.symm
    simp only [Ultrametric.dist, if_neg hij, if_neg hji]
    cases um.id_to_pos[i]? <;> cases um.id_to_pos[j]? <;>
      simp [Nat.min_comm, Nat.max_comm]

/-- C9.  The ultrametric query is symmetric and zero on the diagonal: for
every `Ultrametric` structure and all ids, `dist i j = dist j i`, and
`dist i i = some 0` (the source returns `0.` before any indexing when
`i == j`). -/
theorem ultrametric_dist_symm_diag (um : Ultrametric) :
    (∀ i j, um.dist i j = um.dist j i) ∧ (∀ i, um.dist i i = some 0) :=
  ⟨um_dist_comm um, um_dist_diag um⟩

/-- Modelled from the spec: the `union_find` module is not present under
`src/`.  `UnionFindWithData` (§3, §4.6) partitions `[0, n)` into clusters,
and every cluster owns its linearization (the ordered point-id sequence) and
the parallel gap-weight sequence of length `size - 1`.  The state is the list
of clusters. -/
abbrev UFData := List (List Nat × List ℚ)

/-- Modelled from the spec: the initial `UnionFindWithData` over `[0, n)` is
the partition into singletons, each with an empty gap sequence. -/
def ufdNew (n : Nat) : UFData := (List.range n).map (fun i => ([i], []))

/-- Cluster lookup: the cluster whose linearization contains `u`, if any. -/
def ufdFind (s : UFData) (u : Nat) : Option (List Nat × List ℚ) :=
  s.find? (fun c => u ∈ c.1)

/-- Modelled from the spec: `UnionFindWithData::merge(u, v, w)` signals
"already same set" (here `none`, and also `none` when an id is out of range,
where the source indexes out of bounds and panics); otherwise it concatenates
the two linearizations (cluster of `u` first) and inserts `w` as the new gap
at the concatenation point (§4.6). -/
def ufdMerge (s : UFData) (u v : Nat) (w : ℚ) : Option UFData :=
  match ufdFind s u with
  | none => none
  | some cu =>
    if v ∈ cu.1 then none
    else
      match ufdFind s v with
      | none => none
      | some cv => some ((cu.1 ++ cv.1, cu.2 ++ w :: cv.2) :: ((s.erase cu).erase cv))

/-- Single step of the edge loop in `single_linkage`: the source asserts that
every `merge` succeeds (`assert!(uf.merge(u, v, w).is_some())`), so a failed
merge is a panic, modelled by propagating `none`. -/
def slStep (acc : Option UFData) (e : Edge) : Option UFData :=
  match acc with
  | none => none
  | some s => ufdMerge s e.u e.v e.w

/-- Sorting of an edge list ascending by weight, embedding
`sort_unstable_by_key(|e| OrderedFloat(e.2))`.  The source's unstable sort
is modelled by insertion sort; the order among equal weights is unspecified
in the source and every property proved here is independent of it. -/
def sortEdges (l : List Edge) : List Edge :=
  l.insertionSort (fun a b => a.w ≤ b.w)

/-- Write phase of `single_linkage`: `for (pos, id) in
uf.iter_cluster(0).enumerate() { id_to_pos[id] = pos }`, starting from
`vec![0; n]`, with `k` the running enumeration counter. -/
def buildIdToPos (acc : List Nat) (k : Nat) : List Nat → List Nat
  | [] => acc
  | id :: rest => buildIdToPos (acc.set id k) (k + 1) rest

/-- Embedding of `Ultrametric::single_linkage` (`src/ultrametric/mod.rs`):
sort the cut-weight edges ascending, merge each edge in an
`UnionFindWithData` over `n = len + 1` points asserting that every merge
succeeds (a failing merge is a panic, hence `none`), then linearize the
cluster of point 0 into `id_to_pos` and build the RMQ over its gap
weights. -/
def single_linkage (cut_weights : List Edge) : Option Ultrametric :=
  match (sortEdges cut_weights).foldl slStep (some (ufdNew (cut_weights.length + 1))) with
  | none => none
  | some s =>
    match ufdFind s 0 with
    | none => none
    | some c =>
      some { id_to_pos := buildIdToPos (List.replicate (cut_weights.length + 1) 0) 0 c.1,
             weights := c.2 }

/-- Invariant of the modelled `UnionFindWithData` over `[0, n)`: every
cluster's linearization is one longer than its gap sequence, and the
linearizations jointly enumerate `[0, n)` exactly once (their concatenation
is a permutation of `range n`). -/
def UFDInv (n : Nat) (s : UFData) : Prop :=
  (∀ c ∈ s, c.1.length = c.2.length + 1) ∧ ((s.map Prod.fst).flatten).Perm (List.range n)

theorem flatten_map_singleton (l : List Nat) : (l.map (fun i => [i])).flatten = l := by
  induction l with
  | nil => rfl
  | cons x xs ih => simp only [List.map_cons, List.flatten_cons, ih, List.singleton_append]

theorem ufdNew_inv (n : Nat) : UFDInv n (ufdNew n) := by
  constructor
  · intro c hc
    simp only [ufdNew, List.mem_map, List.mem_range] at hc
    obtain ⟨i, _, rfl⟩ := hc
    rfl
  · have hmap : (ufdNew n).map Prod.fst = (List.range n).map (fun i => [i]) := by
      simp [ufdNew, List.map_map]
    rw [hmap, flatten_map_singleton]

theorem ufdFind_some {s : UFData} {u : Nat} {c : List Nat × List ℚ}
    (h : ufdFind s u = some c) : c ∈ s ∧ u ∈ c.1 := by
  refine ⟨List.mem_of_find?_eq_some h, ?_⟩
  have hp := List.find?_some h
  simpa using hp

theorem ufdFind_isSome {s : UFData} {u : Nat} {c : List Nat × List ℚ}
    (hc : c ∈ s) (hu : u ∈ c.1) : (ufdFind s u).isSome := by
  rw [ufdFind, List.find?_isSome]
  exact ⟨c, hc, by simpa using hu⟩

/-- Disjointness consequence of the enumeration invariant: a point belongs to
the linearization of only one cluster (up to equality of the cluster data). -/
theorem cluster_unique {s : UFData} {n : Nat}
    (hperm : ((s.map Prod.fst).flatten).Perm (List.range n))
    {c₁ c₂ : List Nat × List ℚ} (h₁ : c₁ ∈ s) (h₂ : c₂ ∈ s)
    {x : Nat} (hx₁ : x ∈ c₁.1) (hx₂ : x ∈ c₂.1) : c₁ = c₂ := by
  have hnd : ((s.map Prod.fst).flatten).Nodup := hperm.symm.nodup (List.nodup_range n)
  obtain ⟨t₁, t₂, hs⟩ := List.append_of_mem h₁
  subst hs
  rw [List.mem_append, List.mem_cons] at h₂
  have hfl : (((t₁ ++ c₁ :: t₂).map Prod.fst).flatten)
      = (t₁.map Prod.fst).flatten ++ (c₁.1 ++ (t₂.map Prod.fst).flatten) := by
    simp
  rw [hfl] at hnd
  rw [List.nodup_append] at hnd
  rcases h₂ with h₂ | h₂ | h₂
  · exfalso
    have hxl : x ∈ (t₁.map Prod.fst).flatten :=
      List.mem_flatten.mpr ⟨c₂.1, List.mem_map_of_mem _ h₂, hx₂⟩
    have hxr : x ∈ c₁.1 ++ (t₂.map Prod.fst).flatten := List.mem_append_left _ hx₁
    exact hnd.2.2 hxl hxr
  · exact h₂.symm
  · exfalso
    have hnd2 := hnd.2.1
    rw [List.nodup_append] at hnd2
    have hxr : x ∈ (t₂.map Prod.fst).flatten :=
      List.mem_flatten.mpr ⟨c₂.1, List.mem_map_of_mem _ h₂, hx₂⟩
    exact hnd2.2.2 hx₁ hxr

theorem perm_cons_erase_beq {α : Type} [BEq α] [LawfulBEq α] {a : α} {l : List α}
    (h : a ∈ l) : l.Perm (a :: l.erase a) := by
  induction l with
  | nil => simp at h
  | cons x xs ih =>
    by_cases hxa : x == a
    · have hx : x = a := eq_of_beq hxa
      subst hx
      rw [List.erase_cons_head]
    · rw [List.erase_cons_tail (by simpa using hxa)]
      have hmem : a ∈ xs := by
        rcases List.mem_cons.mp h with hc | hc
        · exact absurd (beq_iff_eq.mpr hc.symm) (by simpa using hxa)
        · exact hc
      exact ((ih hmem).cons x).trans (List.Perm.swap a x _)

theorem ufdMerge_some_elim {s : UFData} {u v : Nat} {w : ℚ} {s' : UFData}
    (h : ufdMerge s u v w = some s') :
    ∃ cu cv, ufdFind s u = some cu ∧ ufdFind s v = some cv ∧ v ∉ cu.1 ∧
      s' = (cu.1 ++ cv.1, cu.2 ++ w :: cv.2) :: ((s.erase cu).erase cv) := by
  unfold ufdMerge at h
  cases hfu : ufdFind s u with
  | none => rw [hfu] at h; exact absurd h (by simp)
  | some cu =>
    rw [hfu] at h
    replace h : (if v ∈ cu.1 then none
        else match ufdFind s v with
          | none => none
          | some cv => some ((cu.1 ++ cv.1, cu.2 ++ w :: cv.2) ::
              ((s.erase cu).erase cv))) = some s' := h
    by_cases hv : v ∈ cu.1
    · rw [if_pos hv] at h; exact absurd h (by simp)
    · rw [if_neg hv] at h
      cases hfv : ufdFind s v with
      | none => rw [hfv] at h; exact absurd h (by simp)
      | some cv =>
        rw [hfv] at h
        injection h with h
        exact ⟨cu, cv, rfl, rfl, hv, h.symm⟩

theorem ufdMerge_inv {n : Nat} {s : UFData} {u v : Nat} {w : ℚ} {s' : UFData}
    (hinv : UFDInv n s) (h : ufdMerge s u v w = some s') :
    UFDInv n s' ∧ s.length = s'.length + 1 := by
  obtain ⟨cu, cv, hfu, hfv, hvcu, hs'⟩ := ufdMerge_some_elim h
  obtain ⟨hcu_mem, hu_cu⟩ := ufdFind_some hfu
  obtain ⟨hcv_mem, hv_cv⟩ := ufdFind_some hfv
  have hne : cv ≠ cu := by
    intro hcon
    rw [hcon] at hv_cv
    exact hvcu hv_cv
  have hcv_mem' : cv ∈ s.erase cu := (List.mem_erase_of_ne hne).mpr hcv_mem
  have hperm1 : s.Perm (cu :: s.erase cu) := perm_cons_erase_beq hcu_mem
  have hperm2 : (s.erase cu).Perm (cv :: (s.erase cu).erase cv) :=
    perm_cons_erase_beq hcv_mem'
  have hperm : s.Perm (cu :: cv :: (s.erase cu).erase cv) :=
    hperm1.trans (List.Perm.cons cu hperm2)
  have hrest_sub : ∀ c ∈ (s.erase cu).erase cv, c ∈ s := by
    intro c hc
    exact List.mem_of_mem_erase (List.mem_of_mem_erase hc)
  constructor
  · constructor
    · intro c hc
      rw [hs'] at hc
      rcases List.mem_cons.mp hc with hc | hc
      · subst hc
        have h1 := hinv.1 cu hcu_mem
        have h2 := hinv.1 cv hcv_mem
        simp only [List.length_append, List.length_cons]
        omega
      · exact hinv.1 c (hrest_sub c hc)
    · have hfla : ((s.map Prod.fst).flatten).Perm
          (((cu :: cv :: (s.erase cu).erase cv).map Prod.fst).flatten) :=
        (hperm.map Prod.fst).flatten
      have hflb : (((cu :: cv :: (s.erase cu).erase cv).map Prod.fst).flatten)
          = ((s'.map Prod.fst).flatten) := by
        rw [hs']
        simp
      rw [← hflb] at *
      exact (hfla.symm.trans hinv.2)
  · have hlen := hperm.length_eq
    rw [hs']
    simp only [List.length_cons] at *
    omega

theorem ufdMerge_gaps {s : UFData} {u v : Nat} {w : ℚ} {s' : UFData}
    (h : ufdMerge s u v w = some s') (hg : ∀ c ∈ s, ∀ g ∈ c.2, 0 ≤ g)
    (hw : 0 ≤ w) : ∀ c ∈ s', ∀ g ∈ c.2, 0 ≤ g := by
  obtain ⟨cu, cv, hfu, hfv, _, hs'⟩ := ufdMerge_some_elim h
  obtain ⟨hcu_mem, _⟩ := ufdFind_some hfu
  obtain ⟨hcv_mem, _⟩ := ufdFind_some hfv
  intro c hc g hgm
  rw [hs'] at hc
  rcases List.mem_cons.mp hc with hc | hc
  · subst hc
    simp only [List.mem_append, List.mem_cons] at hgm
    rcases hgm with hgm | hgm | hgm
    · exact hg cu hcu_mem g hgm
    · rw [hgm]; exact hw
    · exact hg cv hcv_mem g hgm
  · exact hg c (List.mem_of_mem_erase (List.mem_of_mem_erase hc)) g hgm

theorem slFold_none (l : List Edge) : l.foldl slStep none = none := by
  induction l with
  | nil => rfl
  | cons e es ih => simpa [slStep] using ih

theorem slFold_inv {n : Nat} (l : List Edge) :
    ∀ s s' : UFData, UFDInv n s → l.foldl slStep (some s) = some s' →
      UFDInv n s' ∧ s.length = s'.length + l.length := by
  induction l with
  | nil =>
    intro s s' hinv h
    simp only [List.foldl_nil] at h
    injection h with h
    subst h
    exact ⟨hinv, rfl⟩
  | cons e es ih =>
    intro s s' hinv h
    simp only [List.foldl_cons] at h
    cases hm : ufdMerge s e.u e.v e.w with
    | none =>
      rw [show slStep (some s) e = none from by simp [slStep, hm]] at h
      rw [slFold_none] at h
      exact absurd h (by simp)
    | some s₁ =>
      rw [show slStep (some s) e = some s₁ from by simp [slStep, hm]] at h
      obtain ⟨hinv₁, hlen₁⟩ := ufdMerge_inv hinv hm
      obtain ⟨hinv', hlen'⟩ := ih s₁ s' hinv₁ h
      refine ⟨hinv', ?_⟩
      simp only [List.length_cons]
      omega

theorem slFold_gaps (l : List Edge) :
    ∀ s s' : UFData, (∀ c ∈ s, ∀ g ∈ c.2, 0 ≤ g) → (∀ e ∈ l, 0 ≤ e.w) →
      l.foldl slStep (some s) = some s' → ∀ c ∈ s', ∀ g ∈ c.2, 0 ≤ g := by
  induction l with
  | nil =>
    intro s s' hg _ h
    simp only [List.foldl_nil] at h
    injection h with h
    subst h
    exact hg
  | cons e es ih =>
    intro s s' hg hw h
    simp only [List.foldl_cons] at h
    cases hm : ufdMerge s e.u e.v e.w with
    | none =>
      rw [show slStep (some s) e = none from by simp [slStep, hm]] at h
      rw [slFold_none] at h
      exact absurd h (by simp)
    | some s₁ =>
      rw [show slStep (some s) e = some s₁ from by simp [slStep, hm]] at h
      have hg₁ := ufdMerge_gaps hm hg (hw e (List.mem_cons_self e es))
      exact ih s₁ s' hg₁ (fun e' he' => hw e' (List.mem_cons_of_mem e he')) h

/-- Structure theorem for a successful `single_linkage` run: the returned
`Ultrametric` is built from a single final cluster whose linearization is a
permutation of `[0, n)` with `n = cut_weights.length + 1` and whose gap
sequence has length `n - 1`; and when all edge weights are nonnegative so are
all gaps. -/
theorem single_linkage_elim {cw : List Edge} {um : Ultrametric}
    (h : single_linkage cw = some um) :
    ∃ seq gaps, um = ⟨buildIdToPos (List.replicate (cw.length + 1) 0) 0 seq, gaps⟩ ∧
      seq.Perm (List.range (cw.length + 1)) ∧ seq.length = gaps.length + 1 ∧
      ((∀ e ∈ cw, 0 ≤ e.w) → ∀ g ∈ gaps, 0 ≤ g) := by
  unfold single_linkage at h
  cases hfold : (sortEdges cw).foldl slStep (some (ufdNew (cw.length + 1))) with
  | none => rw [hfold] at h; exact absurd h (by simp)
  | some s =>
    rw [hfold] at h
    have hlen0 : (ufdNew (cw.length + 1)).length = cw.length + 1 := by
      simp [ufdNew]
    have hlsort : (sortEdges cw).length = cw.length :=
      (List.perm_insertionSort _ cw).length_eq
    obtain ⟨hinv, hlen⟩ := slFold_inv (n := cw.length + 1) (sortEdges cw) _ s
      (ufdNew_inv (cw.length + 1)) hfold
    have hslen : s.length = 1 := by omega
    cases s with
    | nil => simp at hslen
    | cons c rest =>
      have hrest : rest = [] := by
        simp only [List.length_cons] at hslen
        exact List.length_eq_zero.mp (by omega)
      subst hrest
      have hflat : (([c].map Prod.fst).flatten) = c.1 := by simp
      have hperm : c.1.Perm (List.range (cw.length + 1)) := by
        rw [← hflat]; exact hinv.2
      have h0mem : 0 ∈ c.1 := hperm.mem_iff.mpr (List.mem_range.mpr (by omega))
      have hfind : ufdFind [c] 0 = some c := by
        rw [ufdFind, List.find?_cons_of_pos]
        simpa using h0mem
      replace h : (match ufdFind [c] 0 with
        | none => none
        | some c => some { id_to_pos := buildIdToPos (List.replicate (cw.length + 1) 0) 0 c.1,
                           weights := c.2 }) = some um := h
      rw [hfind] at h
      replace h : some ({ id_to_pos := buildIdToPos (List.replicate (cw.length + 1) 0) 0 c.1,
                          weights := c.2 } : Ultrametric) = some um := h
      injection h with h
      refine ⟨c.1, c.2, h.symm, hperm, hinv.1 c (by simp), ?_⟩
      intro hw
      refine slFold_gaps (sortEdges cw) _ _ ?_ ?_ hfold c (by simp)
      · intro c' hc' g hg
        simp only [ufdNew, List.mem_map] at hc'
        obtain ⟨i, _, rfl⟩ := hc'
        simp at hg
      · intro e he
        exact hw e ((List.perm_insertionSort _ cw).mem_iff.mp he)

theorem buildIdToPos_length :
    ∀ (seq acc : List Nat) (k : Nat), (buildIdToPos acc k seq).length = acc.length := by
  intro seq
  induction seq with
  | nil => intro acc k; rfl
  | cons x xs ih =>
    intro acc k
    simp only [buildIdToPos, ih, List.length_set]

theorem buildIdToPos_not_mem :
    ∀ (seq acc : List Nat) (k x : Nat), x ∉ seq →
      (buildIdToPos acc k seq)[x]? = acc[x]? := by
  intro seq
  induction seq with
  | nil => intro acc k x _; rfl
  | cons y ys ih =>
    intro acc k x hx
    simp only [List.mem_cons, not_or] at hx
    simp only [buildIdToPos, ih _ _ _ hx.2]
    exact List.getElem?_set_ne (fun hcon => hx.1 hcon.symm)

theorem buildIdToPos_getElem :
    ∀ (seq acc : List Nat) (k p : Nat), seq.Nodup → ∀ (hp : p < seq.length),
      seq[p] < acc.length → (buildIdToPos acc k seq)[seq[p]]? = some (k + p) := by
  intro seq
  induction seq with
  | nil => intro acc k p _ hp; simp at hp
  | cons y ys ih =>
    intro acc k p hnd hp hb
    rcases p with _ | p
    · simp only [List.getElem_cons_zero] at hb ⊢
      rw [buildIdToPos, buildIdToPos_not_mem ys _ _ y (by simp at hnd; exact hnd.1)]
      rw [List.getElem?_set_self hb]
      rfl
    · simp only [List.getElem_cons_succ] at hb ⊢
      simp only [List.length_cons] at hp
      rw [buildIdToPos]
      have := ih (acc.set y k) (k + 1) p (by simp at hnd; exact hnd.2) (by omega)
        (by rw [List.length_set]; exact hb)
      rw [this]
      congr 1
      omega

/-- Consequences of a successful `single_linkage` run for the resulting
`id_to_pos` array: it has length `n`, each id below `n` maps to a defined
position below `n`, distinct ids map to distinct positions, and the gap
array has length `n - 1`. -/
theorem idToPos_spec {cw : List Edge} {um : Ultrametric}
    (h : single_linkage cw = some um) :
    um.id_to_pos.length = cw.length + 1 ∧ um.weights.length = cw.length ∧
      (∀ i, i < cw.length + 1 → ∃ p, um.id_to_pos[i]? = some p ∧ p < cw.length + 1) ∧
      (∀ i j pi pj, i < cw.length + 1 → j < cw.length + 1 → i ≠ j →
        um.id_to_pos[i]? = some pi → um.id_to_pos[j]? = some pj → pi ≠ pj) := by
  obtain ⟨seq, gaps, hum, hperm, hlen, _⟩ := single_linkage_elim h
  have hseqlen : seq.length = cw.length + 1 := by
    rw [hperm.length_eq, List.length_range]
  have hnd : seq.Nodup := hperm.symm.nodup (List.nodup_range _)
  have hpos : ∀ i, i < cw.length + 1 → ∃ p, ∃ (hps : p < seq.length),
      seq[p] = i := by
    intro i hi
    have hmem : i ∈ seq := hperm.mem_iff.mpr (List.mem_range.mpr hi)
    exact List.mem_iff_getElem.mp hmem
  subst hum
  refine ⟨?_, ?_, ?_, ?_⟩
  · simp [buildIdToPos_length, List.length_replicate]
  · simp only
    omega
  · intro i hi
    obtain ⟨p, hps, hpi⟩ := hpos i hi
    refine ⟨p, ?_, by omega⟩
    have := buildIdToPos_getElem seq (List.replicate (cw.length + 1) 0) 0 p hnd hps
      (by rw [List.length_replicate, hpi]; exact hi)
    rw [hpi] at this
    simpa using this
  · intro i j pi pj hi hj hij hpi hpj
    obtain ⟨p, hps, hpieq⟩ := hpos i hi
    obtain ⟨q, hqs, hpjeq⟩ := hpos j hj
    have h1 := buildIdToPos_getElem seq (List.replicate (cw.length + 1) 0) 0 p hnd hps
      (by rw [List.length_replicate, hpieq]; exact hi)
    have h2 := buildIdToPos_getElem seq (List.replicate (cw.length + 1) 0) 0 q hnd hqs
      (by rw [List.length_replicate, hpjeq]; exact hj)
    rw [hpieq] at h1
    rw [hpjeq] at h2
    simp only at hpi hpj
    rw [hpi] at h1
    rw [hpj] at h2
    injection h1 with h1
    injection h2 with h2
    intro hcon
    apply hij
    rw [← hpieq, ← hpjeq]
    congr 1
    omega

theorem mem_slice {w : List ℚ} {lo hi : Nat} {x : ℚ} :
    x ∈ (w.drop lo).take (hi - lo) ↔
      ∃ t, lo ≤ t ∧ t < hi ∧ ∃ (ht : t < w.length), w[t] = x := by
  constructor
  · intro hx
    obtain ⟨i, hilen, heq⟩ := List.mem_iff_getElem.mp hx
    have hlen : ((w.drop lo).take (hi - lo)).length = min (hi - lo) (w.length - lo) := by
      simp
    rw [hlen] at hilen
    refine ⟨lo + i, by omega, by omega, by omega, ?_⟩
    rw [← heq, List.getElem_take, List.getElem_drop]
  · rintro ⟨t, hlot, hthi, htw, heq⟩
    rw [List.mem_iff_getElem]
    have hlen : ((w.drop lo).take (hi - lo)).length = min (hi - lo) (w.length - lo) := by
      simp
    refine ⟨t - lo, by omega, ?_⟩
    rw [List.getElem_take, List.getElem_drop, ← heq]
    congr 1
    omega

theorem rmq_get_max_isSome {w : List ℚ} {lo hi : Nat} (h1 : lo < hi)
    (h2 : lo < w.length) : (rmq_get_max w lo hi).isSome := by
  apply max_by_key_isSome
  intro hcon
  have : ((w.drop lo).take (hi - lo)).length = 0 := by rw [hcon]; rfl
  simp only [List.length_take, List.length_drop] at this
  omega

theorem rmq_get_max_le {w : List ℚ} {lo hi : Nat} {m : ℚ}
    (h : rmq_get_max w lo hi = some m) :
    ∀ t, lo ≤ t → t < hi → ∀ (ht : t < w.length), w[t] ≤ m := by
  intro t h1 h2 ht
  have := max_by_key_le id _ m h w[t] (mem_slice.mpr ⟨t, h1, h2, ht, rfl⟩)
  simpa using this

theorem rmq_get_max_attained {w : List ℚ} {lo hi : Nat} {m : ℚ}
    (h : rmq_get_max w lo hi = some m) :
    ∃ t, lo ≤ t ∧ t < hi ∧ ∃ (ht : t < w.length), w[t] = m :=
  mem_slice.mp (max_by_key_mem id _ m h)

theorem rmq_get_max_nonneg {w : List ℚ} {lo hi : Nat} {m : ℚ}
    (hg : ∀ g ∈ w, 0 ≤ g) (h : rmq_get_max w lo hi = some m) : 0 ≤ m := by
  obtain ⟨t, _, _, ht, heq⟩ := rmq_get_max_attained h
  rw [← heq]
  exact hg w[t] (w.getElem_mem ht)

/-- RMQ form of the ultrametric inequality: for three pairwise distinct
positions inside `[0, w.length]`, the range maximum between the first two is
at most the larger of the other two range maxima, because the first range is
covered by the union of the other two. -/
theorem rmq_ultra {w : List ℚ} {p q r : Nat} (hp : p < w.length + 1)
    (hq : q < w.length + 1) (hr : r < w.length + 1)
    (hpq : p ≠ q) (hpr : p ≠ r) (hqr : q ≠ r) :
    ∃ a b c, rmq_get_max w (min p q) (max p q) = some a ∧
      rmq_get_max w (min p r) (max p r) = some b ∧
      rmq_get_max w (min q r) (max q r) = some c ∧ a ≤ max b c := by
  have hsome : ∀ x y : Nat, x < w.length + 1 → y < w.length + 1 → x ≠ y →
      (rmq_get_max w (min x y) (max x y)).isSome := by
    intro x y hx hy hxy
    exact rmq_get_max_isSome (by omega) (by omega)
  obtain ⟨a, ha⟩ := Option.isSome_iff_exists.mp (hsome p q hp hq hpq)
  obtain ⟨b, hb⟩ := Option.isSome_iff_exists.mp (hsome p r hp hr hpr)
  obtain ⟨c, hc⟩ := Option.isSome_iff_exists.mp (hsome q r hq hr hqr)
  refine ⟨a, b, c, ha, hb, hc, ?_⟩
  obtain ⟨t, ht1, ht2, htw, hteq⟩ := rmq_get_max_attained ha
  have hcover : (min p r ≤ t ∧ t < max p r) ∨ (min q r ≤ t ∧ t < max q r) := by
    omega
  rcases hcover with ⟨hc1, hc2⟩ | ⟨hc1, hc2⟩
  · have := rmq_get_max_le hb t hc1 hc2 htw
    rw [hteq] at this
    exact le_trans this (le_max_left b c)
  · have := rmq_get_max_le hc t hc1 hc2 htw
    rw [hteq] at this
    exact le_trans this (le_max_right b c)

theorem um_dist_eq_rmq {um : Ultrametric} {i j pi pj : Nat} (hij : i ≠ j)
    (hi : um.id_to_pos[i]? = some pi) (hj : um.id_to_pos[j]? = some pj) :
    um.dist i j = rmq_get_max um.weights (min pi pj) (max pi pj) := by
  simp [Ultrametric.dist, if_neg hij, hi, hj]

/-- C8.  In the structure built by a successful `single_linkage` run over
`n = cut_weights.length + 1` points, `id_to_pos` is a permutation of
`[0, n)` (defined everywhere below `n`, with values below `n`, injective),
so for `i ≠ j` both below `n` the positions are distinct, the RMQ range is
non-empty, and `dist i j` is defined (the internal `unwrap` never
panics). -/
theorem single_linkage_dist_total {cw : List Edge} {um : Ultrametric}
    (h : single_linkage cw = some um) :
    (∀ i, i < cw.length + 1 → ∃ p, um.id_to_pos[i]? = some p ∧ p < cw.length + 1) ∧
    (∀ i j, i < cw.length + 1 → j < cw.length + 1 → i ≠ j →
      um.id_to_pos[i]? ≠ um.id_to_pos[j]? ∧ (um.dist i j).isSome) := by
  obtain ⟨_, hwlen, hdef, hinj⟩ := idToPos_spec h
  refine ⟨hdef, ?_⟩
  intro i j hi hj hij
  obtain ⟨pi, hpi, hpilt⟩ := hdef i hi
  obtain ⟨pj, hpj, hpjlt⟩ := hdef j hj
  have hne := hinj i j pi pj hi hj hij hpi hpj
  constructor
  · rw [hpi, hpj]
    intro hcon
    injection hcon with hcon
    exact hne hcon
  · rw [um_dist_eq_rmq hij hpi hpj]
    exact rmq_get_max_isSome (by omega) (by omega)

/-- Witness for C8 on the one-edge input `[(0, 1, 1)]`: the built structure
is `⟨[0, 1], [1]⟩` and the query `dist 0 1` is defined. -/
theorem single_linkage_dist_total_witness :
    ((Ultrametric.mk [0, 1] [1]).dist 0 1).isSome :=
  ((@single_linkage_dist_total [⟨0, 1, 1⟩] (Ultrametric.mk [0, 1] [1])
    (by decide)).2 0 1 (by decide) (by decide) (by decide)).2

/-- C1.  For the structure built by a successful `single_linkage` run from
nonnegative cut weights (the spec's `Edge` invariant `weight ≥ 0`), the
query satisfies the ultrametric (strong triangle) inequality exactly: for
all ids `i, j, k` below `n`, `dist i j ≤ max (dist i k) (dist j k)` (and all
three queries are defined). -/
theorem single_linkage_strong_triangle {cw : List Edge} {um : Ultrametric}
    (h : single_linkage cw = some um) (hw : ∀ e ∈ cw, 0 ≤ e.w) :
    ∀ i j k, i < cw.length + 1 → j < cw.length + 1 → k < cw.length + 1 →
      ∃ a b c, um.dist i j = some a ∧ um.dist i k = some b ∧
        um.dist j k = some c ∧ a ≤ max b c := by
  obtain ⟨seq, gaps, hum, hperm, hlen, hgaps⟩ := single_linkage_elim h
  have humw : um.weights = gaps := by rw [hum]
  have hgapsnn : ∀ g ∈ um.weights, 0 ≤ g := by rw [humw]; exact hgaps hw
  obtain ⟨hlenpos, hwlen, hdef, hinj⟩ := idToPos_spec h
  have hval : ∀ x y, x < cw.length + 1 → y < cw.length + 1 → x ≠ y →
      ∃ a, um.dist x y = some a ∧ 0 ≤ a := by
    intro x y hx hy hxy
    obtain ⟨px, hpx, hpxlt⟩ := hdef x hx
    obtain ⟨py, hpy, hpylt⟩ := hdef y hy
    have hne := hinj x y px py hx hy hxy hpx hpy
    have hrm := um_dist_eq_rmq hxy hpx hpy
    have hsome : (um.dist x y).isSome := by
      rw [hrm]; exact rmq_get_max_isSome (by omega) (by omega)
    obtain ⟨a, ha⟩ := Option.isSome_iff_exists.mp hsome
    exact ⟨a, ha, rmq_get_max_nonneg hgapsnn (by rw [← hrm]; exact ha)⟩
  intro i j k hi hj hk
  by_cases hij : i = j
  · subst hij
    by_cases hik : i = k
    · subst hik
      exact ⟨0, 0, 0, um_dist_diag um i, um_dist_diag um i, um_dist_diag um i, by simp⟩
    · obtain ⟨b, hb, hb0⟩ := hval i k hi hk hik
      refine ⟨0, b, b, um_dist_diag um i, hb, hb, ?_⟩
      rw [max_self]
      exact hb0
  · by_cases hik : i = k
    · subst hik
      obtain ⟨a, ha, _⟩ := hval i j hi hj hij
      refine ⟨a, 0, a, ha, um_dist_diag um i, ?_, le_max_right 0 a⟩
      rw [um_dist_comm um j i]
      exact ha
    · by_cases hjk : j = k
      · subst hjk
        obtain ⟨a, ha, _⟩ := hval i j hi hj hij
        exact ⟨a, a, 0, ha, ha, um_dist_diag um j, le_max_left a 0⟩
      · obtain ⟨pi, hpi, hpilt⟩ := hdef i hi
        obtain ⟨pj, hpj, hpjlt⟩ := hdef j hj
        obtain ⟨pk, hpk, hpklt⟩ := hdef k hk
        have hnij := hinj i j pi pj hi hj hij hpi hpj
        have hnik := hinj i k pi pk hi hk hik hpi hpk
        have hnjk := hinj j k pj pk hj hk hjk hpj hpk
        rw [um_dist_eq_rmq hij hpi hpj, um_dist_eq_rmq hik hpi hpk,
          um_dist_eq_rmq hjk hpj hpk]
        exact rmq_ultra (by omega) (by omega) (by omega) hnij hnik hnjk

/-- Witness for C1 on the one-edge input `[(0, 1, 1)]` with the triple
`(i, j, k) = (0, 1, 1)`. -/
theorem single_linkage_strong_triangle_witness :
    ∃ a b c, (Ultrametric.mk [0, 1] [1]).dist 0 1 = some a ∧
      (Ultrametric.mk [0, 1] [1]).dist 0 1 = some b ∧
      (Ultrametric.mk [0, 1] [1]).dist 1 1 = some c ∧ a ≤ max b c :=
  @single_linkage_strong_triangle [⟨0, 1, 1⟩] (Ultrametric.mk [0, 1] [1])
    (by decide) (by decide) 0 1 1 (by decide) (by decide) (by decide)

/-- Co-clustering in the modelled `UnionFindWithData` state: some cluster's
linearization contains both ids. -/
def co_clustered (s : UFData) (u v : Nat) : Prop := ∃ c ∈ s, u ∈ c.1 ∧ v ∈ c.1

instance (s : UFData) (u v : Nat) : Decidable (co_clustered s u v) := by
  unfold co_clustered; infer_instance

/-- Counterexample for C5 as stated: on the cut-weight list
`[(0,1,1), (0,1,2)]` the second edge's endpoints are already co-clustered
when it is processed, and `single_linkage` fails — the source's
`assert!(uf.merge(u, v, w).is_some())` panics, modelled by `none` — instead
of skipping the edge and continuing as the claim asserts. -/
theorem single_linkage_duplicate_edge_panics :
    single_linkage [⟨0, 1, 1⟩, ⟨0, 1, 2⟩] = none := by decide

/-- C5 amended.  During single-linkage reconstruction, an edge whose two
endpoints are already in the same cluster is not skipped: the merge
assertion fails and `single_linkage` aborts (panic, modelled by `none`);
an edge whose endpoints lie in distinct clusters is merged
successfully. -/
theorem single_linkage_coclustered_behavior {cw l₁ l₂ : List Edge} {e : Edge}
    {s : UFData} (hsplit : sortEdges cw = l₁ ++ e :: l₂)
    (hfold : l₁.foldl slStep (some (ufdNew (cw.length + 1))) = some s) :
    (co_clustered s e.u e.v → single_linkage cw = none) ∧
    ((∃ c ∈ s, e.u ∈ c.1) → (∃ c ∈ s, e.v ∈ c.1) → ¬ co_clustered s e.u e.v →
      (ufdMerge s e.u e.v e.w).isSome) := by
  obtain ⟨hinv, _⟩ := slFold_inv (n := cw.length + 1) l₁ _ s
    (ufdNew_inv (cw.length + 1)) hfold
  constructor
  · rintro ⟨c, hc, hu, hv⟩
    obtain ⟨cu, hfu⟩ := Option.isSome_iff_exists.mp (ufdFind_isSome hc hu)
    obtain ⟨hcu_mem, hu_cu⟩ := ufdFind_some hfu
    have hcuc : cu = c := cluster_unique hinv.2 hcu_mem hc hu_cu hu
    have hvcu : e.v ∈ cu.1 := by rw [hcuc]; exact hv
    have hm : ufdMerge s e.u e.v e.w = none := by
      unfold ufdMerge
      rw [hfu]
      exact if_pos hvcu
    have hnone : (sortEdges cw).foldl slStep (some (ufdNew (cw.length + 1))) = none := by
      rw [hsplit, List.foldl_append, hfold]
      simp only [List.foldl_cons]
      rw [show slStep (some s) e = none from by simp [slStep, hm]]
      exact slFold_none l₂
    unfold single_linkage
    rw [hnone]
  · rintro ⟨cu', hcu', huc'⟩ ⟨cv', hcv', hvc'⟩ hnco
    obtain ⟨cu, hfu⟩ := Option.isSome_iff_exists.mp (ufdFind_isSome hcu' huc')
    obtain ⟨hcu_mem, hu_cu⟩ := ufdFind_some hfu
    have hvngu : e.v ∉ cu.1 := fun hcon => hnco ⟨cu, hcu_mem, hu_cu, hcon⟩
    obtain ⟨cv, hfv⟩ := Option.isSome_iff_exists.mp (ufdFind_isSome hcv' hvc')
    unfold ufdMerge
    rw [hfu]
    show (if e.v ∈ cu.1 then (none : Option UFData)
        else match ufdFind s e.v with
          | none => none
          | some cv => some ((cu.1 ++ cv.1, cu.2 ++ e.w :: cv.2) ::
              ((s.erase cu).erase cv))).isSome = true
    rw [if_neg hvngu, hfv]
    rfl

/-- Witness for C5's amended theorem at the concrete input
`[(0,1,1), (0,1,2)]`, split after its first edge: the state after the first
merge co-clusters `0` and `1`, so the run fails. -/
theorem single_linkage_coclustered_behavior_witness :
    single_linkage [⟨0, 1, 1⟩, ⟨0, 1, 2⟩] = none :=
  (@single_linkage_coclustered_behavior
    [⟨0, 1, 1⟩, ⟨0, 1, 2⟩] [⟨0, 1, 1⟩] [] ⟨0, 1, 2⟩ [([0, 1], [1]), ([2], [])]
    (by decide) (by decide)).1 (by decide)

/-- Heap entry of the lazy k-way merge in `AfnCluster::get_farthest`
(`src/afn/mod.rs`): the derived key `value` (bucket entry value minus the
query's own projected value on this axis), the candidate `point_id`, the
query's projected value on this axis (`offset`), and the remaining tail of
this axis's bucket (the `bucket_iter` cursor). -/
structure HeapEntry where
  value : ℚ
  point_id : Nat
  offset : ℚ
  rest : List (ℚ × Nat)
  deriving DecidableEq, Repr

/-- Embedding of `HeapEntry::next`: advance this axis's cursor, deriving the
next entry's key from the next bucket value and the stored offset. -/
def HeapEntry.next (e : HeapEntry) : Option HeapEntry :=
  match e.rest with
  | [] => none
  | (v, id) :: tl => some ⟨v - e.offset, id, e.offset, tl⟩

/-- Pop of a maximal-key entry from the binary heap, modelled on a list: the
earliest entry with the maximal `value` is removed.  Rust's `BinaryHeap`
leaves the order among equal keys unspecified; every property proved here is
independent of that choice. -/
def popMax : List HeapEntry → Option (HeapEntry × List HeapEntry)
  | [] => none
  | e :: es =>
    match popMax es with
    | none => some (e, [])
    | some (m, rest) =>
      if m.value > e.value then some (m, e :: rest) else some (e, es)

/-- Termination measure of the `get_farthest` loop: each heap entry stands
for itself plus its remaining bucket tail, and every iteration pops one entry
and pushes at most that entry's successor, so the measure strictly
decreases. -/
def heapMeasure (h : List HeapEntry) : Nat :=
  (h.map (fun e => 1 + e.rest.length)).sum

/-- Embedding of the `while let Some(entry) = heap.pop()` loop of
`AfnCluster::get_farthest` (`src/afn/mod.rs`), with a structural fuel
argument; the fuel never runs out when it exceeds `heapMeasure heap`
(`afn_loop_fuel_irrelevant`), which is how `get_farthest` calls it.  Each
iteration pops a maximal entry, performs exactly one true squared-distance
evaluation, updates the running farthest candidate on strict improvement,
pushes the popped axis's next entry, increments `it` and stops when
`it > m`.  Returns the final farthest candidate and the number of pops
performed. -/
def afn_loop (points : List (List ℚ)) (p : List ℚ) (m : Nat) :
    Nat → List HeapEntry → Nat → Option (Nat × ℚ) → (Option (Nat × ℚ) × Nat)
  | 0, _, _, far => (far, 0)
  | fuel + 1, heap, it, far =>
    match popMax heap with
    | none => (far, 0)
    | some (e, rest) =>
      let d := dist2 p (points.getD e.point_id [])
      let far' := match far with
        | none => some (e.point_id, d)
        | some (b, db) => if d > db then some (e.point_id, d) else some (b, db)
      let heap' := match e.next with
        | none => rest
        | some e' => e' :: rest
      if m < it + 1 then (far', 1)
      else
        let r := afn_loop points p m fuel heap' (it + 1) far'
        (r.1, r.2 + 1)

/-- The `AfnCluster` data (`src/afn/mod.rs`): borrowed point set and
projection matrix (rows indexed by point id), and per-axis buckets of
`(projected value, point id)` pairs; `m` caps both bucket lengths and the
query loop.  The source stores bucket keys as `Reverse(OrderedFloat)`; the
model stores the projected values directly. -/
structure AfnCluster where
  points : List (List ℚ)
  projections : List (List ℚ)
  buckets : List (List (ℚ × Nat))
  m : Nat
  deriving DecidableEq, Repr

/-- Seeding phase of `get_farthest`: for every axis, pair the query's
projected value with that axis's bucket and push an entry for the bucket's
head (axes with empty buckets contribute nothing), keyed by
`head value - own projected value`.  The source iterates `projected`
indexing `buckets[i]`; the two lists have one entry per projection axis. -/
def seedHeap (projected : List ℚ) (buckets : List (List (ℚ × Nat))) : List HeapEntry :=
  (projected.zip buckets).filterMap (fun vb =>
    match vb.2 with
    | [] => none
    | (bv, bid) :: tl => some ⟨bv - vb.1, bid, vb.1, tl⟩)

/-- Embedding of `AfnCluster::get_farthest`: seed the heap, then run the
bounded lazy-merge loop.  The first component is the farthest candidate
(`none` models the `expect` panic on an empty structure), the second is the
number of pops = true-distance evaluations performed.  Distances are carried
in squared form, which preserves the source's strict comparison. -/
def get_farthest (c : AfnCluster) (id : Nat) : Option (Nat × ℚ) × Nat :=
  afn_loop c.points (c.points.getD id []) c.m
    (heapMeasure (seedHeap (c.projections.getD id []) c.buckets) + 1)
    (seedHeap (c.projections.getD id []) c.buckets) 0 none

theorem popMax_ne_none {l : List HeapEntry} (h : l ≠ []) : popMax l ≠ none := by
  cases l with
  | nil => exact absurd rfl h
  | cons x xs =>
    simp only [popMax]
    cases popMax xs with
    | none => simp
    | some mr =>
      obtain ⟨m, rest⟩ := mr
      by_cases hgt : m.value > x.value <;> simp [hgt]

theorem popMax_measure :
    ∀ {h : List HeapEntry} {e : HeapEntry} {rest : List HeapEntry},
      popMax h = some (e, rest) →
      heapMeasure h = 1 + e.rest.length + heapMeasure rest := by
  intro h
  induction h with
  | nil => intro e rest hpop; simp [popMax] at hpop
  | cons x xs ih =>
    intro e rest hpop
    simp only [popMax] at hpop
    cases hx : popMax xs with
    | none =>
      rw [hx] at hpop
      injection hpop with hpop
      have hxs : xs = [] := by
        cases xs with
        | nil => rfl
        | cons z zs => exact absurd hx (popMax_ne_none (by simp))
      subst hxs
      injection hpop with h1 h2
      subst h1; subst h2
      simp [heapMeasure]
    | some mr =>
      rw [hx] at hpop
      obtain ⟨mm, mrest⟩ := mr
      replace hpop : (if mm.value > x.value then some (mm, x :: mrest)
          else some (x, xs)) = some (e, rest) := hpop
      have hrec := ih hx
      by_cases hgt : mm.value > x.value
      · rw [if_pos hgt] at hpop
        injection hpop with hpop
        injection hpop with h1 h2
        subst h1; subst h2
        simp only [heapMeasure, List.map_cons, List.sum_cons] at *
        omega
      · rw [if_neg hgt] at hpop
        injection hpop with hpop
        injection hpop with h1 h2
        subst h1; subst h2
        simp only [heapMeasure, List.map_cons, List.sum_cons]

theorem heapMeasure_push (e : HeapEntry) (rest : List HeapEntry) :
    heapMeasure (match e.next with
      | none => rest
      | some e' => e' :: rest) ≤ e.rest.length + heapMeasure rest := by
  cases hr : e.rest with
  | nil => simp [HeapEntry.next, hr]
  | cons x tl =>
    obtain ⟨v, id⟩ := x
    simp only [HeapEntry.next, hr, heapMeasure, List.map_cons, List.sum_cons,
      List.length_cons]
    omega

theorem afn_loop_fuel_irrelevant (points : List (List ℚ)) (p : List ℚ) (m : Nat) :
    ∀ fuel₁ fuel₂ heap it far, heapMeasure heap < fuel₁ → heapMeasure heap < fuel₂ →
      afn_loop points p m fuel₁ heap it far = afn_loop points p m fuel₂ heap it far := by
  intro fuel₁
  induction fuel₁ with
  | zero => intro fuel₂ heap it far h1 _; omega
  | succ f ih =>
    intro fuel₂ heap it far h1 h2
    cases fuel₂ with
    | zero => omega
    | succ g =>
      cases hpop : popMax heap with
      | none => simp only [afn_loop, hpop]
      | some er =>
        obtain ⟨e, rest⟩ := er
        have hmeas := popMax_measure hpop
        have hless : heapMeasure (match e.next with
            | none => rest
            | some e' => e' :: rest) < heapMeasure heap := by
          have := heapMeasure_push e rest
          omega
        simp only [afn_loop, hpop]
        by_cases hstop : m < it + 1
        · simp only [if_pos hstop]
        · simp only [if_neg hstop]
          rw [ih g _ (it + 1) _ (by omega) (by omega)]

theorem afn_loop_pops_le (points : List (List ℚ)) (p : List ℚ) (m : Nat) :
    ∀ fuel heap it far, it ≤ m →
      (afn_loop points p m fuel heap it far).2 ≤ m + 1 - it := by
  intro fuel
  induction fuel with
  | zero => intro heap it far _; simp [afn_loop]
  | succ f ih =>
    intro heap it far hit
    cases hpop : popMax heap with
    | none => simp [afn_loop, hpop]
    | some er =>
      obtain ⟨e, rest⟩ := er
      simp only [afn_loop, hpop]
      by_cases hstop : m < it + 1
      · simp only [if_pos hstop]
        omega
      · simp only [if_neg hstop]
        have := ih (match e.next with
          | none => rest
          | some e' => e' :: rest) (it + 1)
          (match far with
            | none => some (e.point_id, dist2 p (points.getD e.point_id []))
            | some (b, db) => if dist2 p (points.getD e.point_id []) > db
                then some (e.point_id, dist2 p (points.getD e.point_id []))
                else some (b, db)) (by omega)
        omega

/-- Counterexample for C6 as stated: the concrete cluster below has `m = 1`,
yet `get_farthest` performs `2` pops and hence `2` true distance
evaluations — the source increments `it` after the pop and only breaks once
`it > m`, so up to `m + 1` entries are popped, not `m`. -/
theorem get_farthest_pops_exceed_m :
    (get_farthest ⟨[[0], [3]], [[0], [3]], [[(3, 1), (0, 0)]], 1⟩ 0).2 = 2 := by
  decide

/-- C6 amended.  For every `AfnCluster` and every query id, `get_farthest`
pops at most `m + 1` heap entries in total, and therefore performs at most
`m + 1` true squared-Euclidean-distance evaluations (one per pop) before
returning. -/
theorem get_farthest_pops_le (c : AfnCluster) (id : Nat) :
    (get_farthest c id).2 ≤ c.m + 1 := by
  unfold get_farthest
  have h := afn_loop_pops_le c.points (c.points.getD id []) c.m
    (heapMeasure (seedHeap (c.projections.getD id []) c.buckets) + 1)
    (seedHeap (c.projections.getD id []) c.buckets) 0 none (Nat.zero_le _)
  simpa using h

/-- Inner `retain` scan of `local_bfs` (`src/spanning_tree/kt.rs`): compare
`u` against every remaining bucket member `v` in order; a `v` within
`gamma * radius` of `u` is emitted as the edge `(u, v, dist(u, v))` and
removed, the others are retained in order.  Here `gr` stands for
`gamma * radius` and the comparison `dist ≤ gr` is carried in squared form:
for the nonnegative Euclidean distance, `dist ≤ gr` holds exactly when
`0 ≤ gr` and `dist2 ≤ gr ^ 2`, and the edge weight carries `dist2`. -/
def scanNear (points : List (List ℚ)) (gr : ℚ) (u : Nat) :
    List Nat → List Edge × List Nat
  | [] => ([], [])
  | v :: rest =>
    let d := dist2 (points.getD u []) (points.getD v [])
    let er := scanNear points gr u rest
    if 0 ≤ gr ∧ d ≤ gr ^ 2 then (⟨u, v, d⟩ :: er.1, er.2)
    else (er.1, v :: er.2)

/-- Embedding of the outer `while let Some(x) = b.pop()` loop of `local_bfs`:
pop the last element of the bucket, compare it against the retained rest (the
inner queue only ever holds the popped element, so the "BFS" is a single
scan), and continue on the retained list.  The structural fuel is the bucket
length, which never runs out because every round removes at least the popped
element (`localBfsAux_fuel_irrelevant`). -/
def localBfsAux (points : List (List ℚ)) (gr : ℚ) :
    Nat → List Nat → List Edge
  | 0, _ => []
  | fuel + 1, b =>
    match b.getLast? with
    | none => []
    | some x =>
      let er := scanNear points gr x b.dropLast
      er.1 ++ localBfsAux points gr fuel er.2

/-- Embedding of `local_bfs` (`src/spanning_tree/kt.rs`) on one LSH bucket,
with `gr = gamma * radius`. -/
def local_bfs (points : List (List ℚ)) (gr : ℚ) (b : List Nat) : List Edge :=
  localBfsAux points gr b.length b

theorem scanNear_far_sublist (points : List (List ℚ)) (gr : ℚ) (u : Nat) :
    ∀ l : List Nat, (scanNear points gr u l).2.Sublist l := by
  intro l
  induction l with
  | nil => simp [scanNear]
  | cons v rest ih =>
    simp only [scanNear]
    by_cases hc : 0 ≤ gr ∧ dist2 (points.getD u []) (points.getD v []) ≤ gr ^ 2
    · rw [if_pos hc]
      exact ih.cons v
    · rw [if_neg hc]
      exact ih.cons₂ v

theorem scanNear_sound (points : List (List ℚ)) (gr : ℚ) (u : Nat) :
    ∀ (l : List Nat) (e : Edge), e ∈ (scanNear points gr u l).1 →
      e.u = u ∧ e.v ∈ l ∧
      e.w = dist2 (points.getD u []) (points.getD e.v []) ∧
      0 ≤ gr ∧ e.w ≤ gr ^ 2 := by
  intro l
  induction l with
  | nil => intro e he; simp [scanNear] at he
  | cons v rest ih =>
    intro e he
    simp only [scanNear] at he
    by_cases hc : 0 ≤ gr ∧ dist2 (points.getD u []) (points.getD v []) ≤ gr ^ 2
    · rw [if_pos hc] at he
      rcases List.mem_cons.mp he with he | he
      · subst he
        exact ⟨rfl, List.mem_cons_self v rest, rfl, hc.1, hc.2⟩
      · obtain ⟨h1, h2, h3, h4, h5⟩ := ih e he
        exact ⟨h1, List.mem_cons_of_mem v h2, h3, h4, h5⟩
    · rw [if_neg hc] at he
      obtain ⟨h1, h2, h3, h4, h5⟩ := ih e he
      exact ⟨h1, List.mem_cons_of_mem v h2, h3, h4, h5⟩

theorem localBfsAux_sound (points : List (List ℚ)) (gr : ℚ) :
    ∀ (fuel : Nat) (b : List Nat), b.Nodup →
      ∀ e ∈ localBfsAux points gr fuel b,
        e.u ∈ b ∧ e.v ∈ b ∧ e.u ≠ e.v ∧
        e.w = dist2 (points.getD e.u []) (points.getD e.v []) ∧
        0 ≤ gr ∧ e.w ≤ gr ^ 2 := by
  intro fuel
  induction fuel with
  | zero => intro b _ e he; simp [localBfsAux] at he
  | succ f ih =>
    intro b hnd e he
    simp only [localBfsAux] at he
    cases hlast : b.getLast? with
    | none => rw [hlast] at he; simp at he
    | some x =>
      rw [hlast] at he
      have hb : b.dropLast ++ [x] = b := List.dropLast_append_getLast? x hlast
      have hnd' : (b.dropLast ++ [x]).Nodup := by rw [hb]; exact hnd
      rw [List.nodup_append] at hnd'
      have hxdrop : x ∉ b.dropLast := fun hcon =>
        hnd'.2.2 hcon (List.mem_singleton_self x)
      simp only [List.mem_append] at he
      rcases he with he | he
      · obtain ⟨h1, h2, h3, h4, h5⟩ := scanNear_sound points gr x _ e he
        have hvne : e.v ≠ x := fun hcon => hxdrop (hcon ▸ h2)
        refine ⟨?_, ?_, ?_, ?_, h4, h5⟩
        · rw [h1, ← hb]; exact List.mem_append_right _ (List.mem_singleton_self x)
        · rw [← hb]; exact List.mem_append_left _ h2
        · rw [h1]; exact fun hcon => hvne hcon.symm
        · rw [h1]; exact h3
      · have hfar : (scanNear points gr x b.dropLast).2.Sublist b.dropLast :=
          scanNear_far_sublist points gr x b.dropLast
        have hfarnd : (scanNear points gr x b.dropLast).2.Nodup :=
          hfar.nodup hnd'.1
        obtain ⟨h1, h2, h3, h4, h5, h6⟩ := ih _ hfarnd e he
        have hsub : ∀ y, y ∈ (scanNear points gr x b.dropLast).2 → y ∈ b := by
          intro y hy
          rw [← hb]
          exact List.mem_append_left _ (hfar.mem hy)
        exact ⟨hsub e.u h1, hsub e.v h2, h3, h4, h5, h6⟩

theorem scanNear_far_length (points : List (List ℚ)) (gr : ℚ) (u : Nat)
    (l : List Nat) : (scanNear points gr u l).2.length ≤ l.length :=
  (scanNear_far_sublist points gr u l).length_le

theorem localBfsAux_fuel_eq (points : List (List ℚ)) (gr : ℚ) :
    ∀ (f₁ f₂ : Nat) (b : List Nat), b.length ≤ f₁ → b.length ≤ f₂ →
      localBfsAux points gr f₁ b = localBfsAux points gr f₂ b := by
  intro f₁
  induction f₁ with
  | zero =>
    intro f₂ b h1 _
    have : b = [] := List.length_eq_zero.mp (by omega)
    subst this
    cases f₂ <;> rfl
  | succ f ih =>
    intro f₂ b h1 h2
    cases f₂ with
    | zero =>
      have : b = [] := List.length_eq_zero.mp (by omega)
      subst this
      rfl
    | succ g =>
      cases hlast : b.getLast? with
      | none => simp only [localBfsAux, hlast]
      | some x =>
        have hb' : b.dropLast ++ [x] = b := List.dropLast_append_getLast? x hlast
        have hlen : b.dropLast.length + 1 = b.length := by
          rw [← hb']; simp
        have hfarlen : (scanNear points gr x b.dropLast).2.length ≤ b.dropLast.length :=
          scanNear_far_length points gr x b.dropLast
        simp only [localBfsAux, hlast]
        rw [ih g _ (by omega) (by omega)]

/-- The fuel of `localBfsAux` is irrelevant as soon as it reaches the bucket
length: each round pops one element, so `local_bfs` computes the full loop
of the source. -/
theorem localBfsAux_fuel_irrelevant (points : List (List ℚ)) (gr : ℚ)
    (fuel : Nat) (b : List Nat) (h : b.length ≤ fuel) :
    localBfsAux points gr fuel b = local_bfs points gr b :=
  localBfsAux_fuel_eq points gr fuel b.length b h (Nat.le_refl _)

/-- Modelled randomness boundary for `gamma_kt` (`src/spanning_tree/kt.rs`):
the source iterates a floating-point radius ladder and, at each rung, runs
`nb_iter` independent randomized LSH bucketings (`projection_lsh`), exploring
every bucket of every pass with `local_bfs` at threshold `gamma * radius`.
The random draws and the `f32` ladder are supplied here as an explicit list
of passes, each a `(radius, buckets)` pair standing for one bucketing sweep;
`projection_lsh` always partitions the point indices `[0, n)`, so each
bucket is a duplicate-free list of valid indices (the hypotheses of
`gamma_kt_edges_sound`). -/
def gamma_kt_passes (points : List (List ℚ)) (gamma : ℚ)
    (passes : List (ℚ × List (List Nat))) : List Edge :=
  (passes.map (fun rb =>
    ((rb.2.map (fun b => local_bfs points (gamma * rb.1) b)).flatten))).flatten

/-- C7.  Every edge `(u, v, w)` emitted by the spanner satisfies `u ≠ v`,
`w` equal to the true (squared) Euclidean distance between points `u` and
`v` — hence `w ≥ 0` — and `w` within the `gamma * radius` threshold (in
squared form) for the ladder radius of the pass that recorded it, provided
every bucket is duplicate-free (as LSH bucketing guarantees). -/
theorem gamma_kt_edges_sound (points : List (List ℚ)) (gamma : ℚ)
    (passes : List (ℚ × List (List Nat)))
    (hnd : ∀ rb ∈ passes, ∀ b ∈ rb.2, b.Nodup) :
    ∀ e ∈ gamma_kt_passes points gamma passes,
      e.u ≠ e.v ∧ e.w = dist2 (points.getD e.u []) (points.getD e.v []) ∧
      0 ≤ e.w ∧
      ∃ rb ∈ passes, 0 ≤ gamma * rb.1 ∧ e.w ≤ (gamma * rb.1) ^ 2 := by
  intro e he
  rw [gamma_kt_passes, List.mem_flatten] at he
  obtain ⟨l, hl, hel⟩ := he
  rw [List.mem_map] at hl
  obtain ⟨rb, hrb, hrbl⟩ := hl
  subst hrbl
  rw [List.mem_flatten] at hel
  obtain ⟨l', hl', hel'⟩ := hel
  rw [List.mem_map] at hl'
  obtain ⟨b, hbmem, hbl⟩ := hl'
  subst hbl
  obtain ⟨_, _, hne, hw, hgr, hle⟩ :=
    localBfsAux_sound points (gamma * rb.1) b.length b (hnd rb hrb b hbmem) e hel'
  refine ⟨hne, hw, ?_, rb, hrb, hgr, hle⟩
  rw [hw]
  exact dist2_nonneg _ _

/-- Witness for C7 at the two-point set `{(0), (1)}` with `gamma = 2` and a
single pass of radius `1` whose only bucket is `[0, 1]`: the single emitted
edge is `(1, 0, 1)` and satisfies all the stated properties. -/
theorem gamma_kt_edges_sound_witness :
    (⟨1, 0, 1⟩ : Edge).u ≠ (⟨1, 0, 1⟩ : Edge).v ∧
    (⟨1, 0, 1⟩ : Edge).w =
      dist2 ([[0], [1]].getD (⟨1, 0, 1⟩ : Edge).u [])
        ([[0], [1]].getD (⟨1, 0, 1⟩ : Edge).v []) ∧
    0 ≤ (⟨1, 0, 1⟩ : Edge).w ∧
    ∃ rb ∈ [((1 : ℚ), [[0, 1]])], 0 ≤ 2 * rb.1 ∧ (⟨1, 0, 1⟩ : Edge).w ≤ (2 * rb.1) ^ 2 :=
  gamma_kt_edges_sound [[0], [1]] 2 [(1, [[0, 1]])] (by decide) ⟨1, 0, 1⟩ (by
    have h : gamma_kt_passes [[0], [1]] 2 [(1, [[0, 1]])] = [⟨1, 0, 1⟩] := by
      norm_num [gamma_kt_passes, local_bfs, localBfsAux, scanNear, dist2]
    rw [h]
    exact List.mem_singleton_self _)

/-- Modelled from the spec: the plain `union_find` module is absent from
`src/`.  `UnionFind` (§3) partitions `[0, n)` and `merge(u, v)` signals
"already same set".  The model keeps every element's current representative
in a fully flattened vector: `merge` redirects the whole class of `v`'s
representative to `u`'s. -/
def ufNew (n : Nat) : List Nat := List.range n

/-- Representative lookup in the flattened union-find vector. -/
def ufFind (uf : List Nat) (u : Nat) : Nat := uf.getD u 0

/-- Modelled from the spec: `UnionFind::merge(u, v)` returns `none` when the
endpoints already share a representative and otherwise merges the two
classes. -/
def ufMerge (uf : List Nat) (u v : Nat) : Option (List Nat) :=
  if ufFind uf u = ufFind uf v then none
  else some (uf.map (fun r => if r = ufFind uf v then ufFind uf u else r))

/-- One Kruskal scan step, embedding the `filter` closure of
`exact_mst_krusal` (`src/spanning_tree/mod.rs`): try to merge the edge's
endpoints and accept the edge exactly when the merge succeeds. -/
def kruskalStep (s : List Nat × List Edge) (e : Edge) : List Nat × List Edge :=
  match ufMerge s.1 e.u e.v with
  | none => s
  | some uf => (uf, s.2 ++ [e])

/-- Embedding of `exact_mst_krusal` (`src/spanning_tree/mod.rs`): sort the
edges ascending by weight, initialize a plain union-find over `n` elements,
scan the edges in order accepting an edge only if its endpoints are not
already in the same component. -/
def exact_mst_krusal (edges : List Edge) (n : Nat) : List Edge :=
  ((sortEdges edges).foldl kruskalStep (ufNew n, [])).2

/-- One edge connecting two vertices, in either orientation. -/
def edgeConnects (e : Edge) (a b : Nat) : Prop :=
  (e.u = a ∧ e.v = b) ∨ (e.u = b ∧ e.v = a)

/-- Adjacency of the multigraph described by an edge list. -/
def adjacent (E : List Edge) (a b : Nat) : Prop := ∃ e ∈ E, edgeConnects e a b

/-- Reachability in the multigraph described by an edge list. -/
def reach (E : List Edge) : Nat → Nat → Prop := Relation.ReflTransGen (adjacent E)

/-- Connectivity of the underlying graph over the vertex set `[0, n)`. -/
def connectedGraph (E : List Edge) (n : Nat) : Prop :=
  ∀ u, u < n → ∀ v, v < n → reach E u v

/-- Acyclicity of an edge list: every edge is a bridge, i.e. its endpoints
are not connected by the remaining edges (with one copy of the edge
removed, so a duplicated edge is correctly a cycle). -/
def acyclicEdges (E : List Edge) : Prop :=
  ∀ e ∈ E, ¬ reach (E.erase e) e.u e.v

theorem adjacent_symm {E : List Edge} {a b : Nat} (h : adjacent E a b) :
    adjacent E b a := by
  obtain ⟨e, he, hc⟩ := h
  refine ⟨e, he, ?_⟩
  rcases hc with ⟨h1, h2⟩ | ⟨h1, h2⟩
  · exact Or.inr ⟨h1, h2⟩
  · exact Or.inl ⟨h1, h2⟩

theorem reach_symm {E : List Edge} {a b : Nat} (h : reach E a b) : reach E b a := by
  induction h with
  | refl => exact Relation.ReflTransGen.refl
  | tail _ hadj ih =>
    exact Relation.ReflTransGen.trans
      (Relation.ReflTransGen.single (adjacent_symm hadj)) ih

theorem reach_mono {E₁ E₂ : List Edge} (hsub : ∀ e ∈ E₁, e ∈ E₂) {a b : Nat}
    (h : reach E₁ a b) : reach E₂ a b := by
  induction h with
  | refl => exact Relation.ReflTransGen.refl
  | tail _ hadj ih =>
    obtain ⟨e, he, hc⟩ := hadj
    exact Relation.ReflTransGen.tail ih ⟨e, hsub e he, hc⟩

theorem reach_nil {a b : Nat} (h : reach [] a b) : a = b := by
  induction h with
  | refl => rfl
  | tail _ hadj _ => obtain ⟨e, he, _⟩ := hadj; simp at he

theorem reach_perm {E₁ E₂ : List Edge} (hperm : E₁.Perm E₂) {a b : Nat} :
    reach E₁ a b ↔ reach E₂ a b :=
  ⟨reach_mono (fun e he => hperm.mem_iff.mp he),
   reach_mono (fun e he => hperm.mem_iff.mpr he)⟩

/-- Path decomposition across one extra edge: a walk in `E ++ [e]` either
stays in `E` or crosses `e`, in which case it splits into two `E`-walks to
the endpoints of `e`. -/
theorem reach_append_single {E : List Edge} {e : Edge} {a b : Nat} :
    reach (E ++ [e]) a b ↔
      reach E a b ∨ (reach E a e.u ∧ reach E e.v b) ∨
        (reach E a e.v ∧ reach E e.u b) := by
  constructor
  · intro h
    induction h with
    | refl => exact Or.inl Relation.ReflTransGen.refl
    | tail _ hadj ih =>
      rename_i x y _
      obtain ⟨f, hf, hc⟩ := hadj
      rw [List.mem_append, List.mem_singleton] at hf
      rcases hf with hf | hf
      · rcases ih with ih | ⟨ih1, ih2⟩ | ⟨ih1, ih2⟩
        · exact Or.inl (Relation.ReflTransGen.tail ih ⟨f, hf, hc⟩)
        · exact Or.inr (Or.inl ⟨ih1, Relation.ReflTransGen.tail ih2 ⟨f, hf, hc⟩⟩)
        · exact Or.inr (Or.inr ⟨ih1, Relation.ReflTransGen.tail ih2 ⟨f, hf, hc⟩⟩)
      · subst hf
        rcases hc with ⟨hc1, hc2⟩ | ⟨hc1, hc2⟩
        · subst hc1; subst hc2
          rcases ih with ih | ⟨ih1, _⟩ | ⟨ih1, _⟩
          · exact Or.inr (Or.inl ⟨ih, Relation.ReflTransGen.refl⟩)
          · exact Or.inr (Or.inl ⟨ih1, Relation.ReflTransGen.refl⟩)
          · exact Or.inl ih1
        · subst hc1; subst hc2
          rcases ih with ih | ⟨ih1, _⟩ | ⟨ih1, _⟩
          · exact Or.inr (Or.inr ⟨ih, Relation.ReflTransGen.refl⟩)
          · exact Or.inl ih1
          · exact Or.inr (Or.inr ⟨ih1, Relation.ReflTransGen.refl⟩)
  · intro h
    have hmon : ∀ x y, reach E x y → reach (E ++ [e]) x y :=
      fun x y => reach_mono (fun f hf => List.mem_append_left _ hf)
    have hstep : reach (E ++ [e]) e.u e.v :=
      Relation.ReflTransGen.single
        ⟨e, List.mem_append_right _ (List.mem_singleton_self e), Or.inl ⟨rfl, rfl⟩⟩
    rcases h with h | ⟨h1, h2⟩ | ⟨h1, h2⟩
    · exact hmon a b h
    · exact ((hmon a e.u h1).trans hstep).trans (hmon e.v b h2)
    · exact ((hmon a e.v h1).trans (reach_symm hstep)).trans (hmon e.u b h2)

/-- A redundant edge (one whose endpoints the remaining edges already
connect) does not change reachability. -/
theorem reach_erase_redundant {E : List Edge} {e : Edge} (hmem : e ∈ E)
    (hred : reach (E.erase e) e.u e.v) {a b : Nat} :
    reach E a b ↔ reach (E.erase e) a b := by
  have hperm : E.Perm (E.erase e ++ [e]) := by
    refine (perm_cons_erase_beq hmem).trans ?_
    exact (List.perm_append_singleton e (E.erase e)).symm
  rw [reach_perm hperm, reach_append_single]
  constructor
  · rintro (h | ⟨h1, h2⟩ | ⟨h1, h2⟩)
    · exact h
    · exact (h1.trans hred).trans h2
    · exact (h1.trans (reach_symm hred)).trans h2
  · exact Or.inl

/-- A walk may skip over an edge whose endpoints are already connected. -/
theorem reach_snoc_redundant {E : List Edge} {e : Edge}
    (h : reach E e.u e.v) (a b : Nat) :
    reach (E ++ [e]) a b ↔ reach E a b := by
  rw [reach_append_single]
  constructor
  · rintro (hr | ⟨h1, h2⟩ | ⟨h1, h2⟩)
    · exact hr
    · exact (h1.trans h).trans h2
    · exact (h1.trans (reach_symm h)).trans h2
  · exact Or.inl

/-- Adding a bridge (an edge whose endpoints are not yet connected) keeps
the edge list acyclic. -/
theorem acyclic_snoc {E : List Edge} {e : Edge} (hac : acyclicEdges E)
    (hnr : ¬ reach E e.u e.v) : acyclicEdges (E ++ [e]) := by
  intro f hf
  have hemem : e ∉ E := fun hcon =>
    hnr (Relation.ReflTransGen.single ⟨e, hcon, Or.inl ⟨rfl, rfl⟩⟩)
  rw [List.mem_append, List.mem_singleton] at hf
  rcases hf with hf | hf
  · rw [List.erase_append_left [e] hf]
    intro hcon
    rw [reach_append_single] at hcon
    have hmon : ∀ x y, reach (E.erase f) x y → reach E x y :=
      fun x y => reach_mono (fun g hg => List.mem_of_mem_erase hg)
    have hstep : reach E f.u f.v :=
      Relation.ReflTransGen.single ⟨f, hf, Or.inl ⟨rfl, rfl⟩⟩
    rcases hcon with hcon | ⟨h1, h2⟩ | ⟨h1, h2⟩
    · exact hac f hf hcon
    · exact hnr (((reach_symm (hmon _ _ h1)).trans hstep).trans (reach_symm (hmon _ _ h2)))
    · exact hnr ((hmon _ _ h2).trans ((reach_symm hstep).trans (hmon _ _ h1)))
  · subst hf
    rw [List.erase_append_right [f] hemem]
    simpa using hnr

/-- Wellformedness of the flattened union-find vector over `[0, n)`: right
length, representatives in range, and idempotent representative map. -/
def UFWf (uf : List Nat) (n : Nat) : Prop :=
  uf.length = n ∧ (∀ i, i < n → ufFind uf i < n) ∧
    (∀ i, i < n → ufFind uf (ufFind uf i) = ufFind uf i)

/-- Number of classes of the union-find: fixed points of the representative
map below `n`. -/
def rootsCount (uf : List Nat) (n : Nat) : Nat :=
  ((Finset.range n).filter (fun i => ufFind uf i = i)).card

theorem ufFind_ufNew {n i : Nat} (h : i < n) : ufFind (ufNew n) i = i := by
  simp [ufFind, ufNew, List.getD_eq_getElem?_getD, List.getElem?_range h]

theorem ufNew_wf (n : Nat) : UFWf (ufNew n) n := by
  refine ⟨by simp [ufNew], ?_, ?_⟩
  · intro i hi; rw [ufFind_ufNew hi]; exact hi
  · intro i hi; rw [ufFind_ufNew hi, ufFind_ufNew hi]

theorem rootsCount_ufNew (n : Nat) : rootsCount (ufNew n) n = n := by
  rw [rootsCount, Finset.filter_true_of_mem, Finset.card_range]
  intro i hi
  exact ufFind_ufNew (Finset.mem_range.mp hi)

theorem ufMerge_some_iff {uf : List Nat} {u v : Nat} :
    (ufMerge uf u v).isSome ↔ ufFind uf u ≠ ufFind uf v := by
  unfold ufMerge
  by_cases h : ufFind uf u = ufFind uf v <;> simp [h]

theorem ufMerge_some_ne {uf : List Nat} {u v : Nat} {uf' : List Nat}
    (h : ufMerge uf u v = some uf') : ufFind uf u ≠ ufFind uf v := by
  intro hcon
  rw [ufMerge, if_pos hcon] at h
  exact Option.noConfusion h

theorem ufMerge_eq_map {uf : List Nat} {u v : Nat} {uf' : List Nat}
    (h : ufMerge uf u v = some uf') :
    uf' = uf.map (fun r => if r = ufFind uf v then ufFind uf u else r) := by
  have hne := ufMerge_some_ne h
  rw [ufMerge, if_neg hne] at h
  injection h with h
  exact h.symm

theorem ufFind_lt_length {uf : List Nat} {n x : Nat} (hlen : uf.length = n)
    (hx : x < n) : ufFind uf x = uf.get ⟨x, by omega⟩ := by
  rw [ufFind, List.getD_eq_getElem?_getD, List.getElem?_eq_getElem (by omega)]
  rfl

theorem ufMerge_find {uf : List Nat} {n u v : Nat} {uf' : List Nat}
    (hlen : uf.length = n) (h : ufMerge uf u v = some uf') {x : Nat} (hx : x < n) :
    ufFind uf' x = if ufFind uf x = ufFind uf v then ufFind uf u else ufFind uf x := by
  have hmap := ufMerge_eq_map h
  subst hmap
  rw [ufFind_lt_length (n := n) (by simpa using hlen) hx, ufFind_lt_length hlen hx]
  exact List.getElem_map _

theorem ufMerge_wf {uf : List Nat} {n u v : Nat} {uf' : List Nat}
    (hwf : UFWf uf n) (hu : u < n) (hv : v < n)
    (h : ufMerge uf u v = some uf') : UFWf uf' n := by
  obtain ⟨hlen, hbnd, hflat⟩ := hwf
  have hlen' : uf'.length = n := by rw [ufMerge_eq_map h]; simpa using hlen
  refine ⟨hlen', ?_, ?_⟩
  · intro i hi
    rw [ufMerge_find hlen h hi]
    by_cases hc : ufFind uf i = ufFind uf v
    · rw [if_pos hc]; exact hbnd u hu
    · rw [if_neg hc]; exact hbnd i hi
  · intro i hi
    rw [ufMerge_find hlen h hi]
    by_cases hc : ufFind uf i = ufFind uf v
    · rw [if_pos hc, ufMerge_find hlen h (hbnd u hu), hflat u hu]
      by_cases hc2 : ufFind uf u = ufFind uf v
      · rw [if_pos hc2]
      · rw [if_neg hc2]
    · rw [if_neg hc, ufMerge_find hlen h (hbnd i hi), hflat i hi, if_neg hc]

theorem ufMerge_roots {uf : List Nat} {n u v : Nat} {uf' : List Nat}
    (hwf : UFWf uf n) (hu : u < n) (hv : v < n)
    (h : ufMerge uf u v = some uf') :
    rootsCount uf n = rootsCount uf' n + 1 := by
  obtain ⟨hlen, hbnd, hflat⟩ := hwf
  have hne := ufMerge_some_ne h
  have hrv_root : ufFind uf (ufFind uf v) = ufFind uf v := hflat v hv
  have hrv_lt : ufFind uf v < n := hbnd v hv
  have hset : (Finset.range n).filter (fun i => ufFind uf' i = i)
      = ((Finset.range n).filter (fun i => ufFind uf i = i)).erase (ufFind uf v) := by
    ext i
    simp only [Finset.mem_filter, Finset.mem_erase, Finset.mem_range]
    constructor
    · rintro ⟨hi, hroot⟩
      rw [ufMerge_find hlen h hi] at hroot
      by_cases hc : ufFind uf i = ufFind uf v
      · rw [if_pos hc] at hroot
        exfalso
        apply hne
        have hiu : i = ufFind uf u := hroot.symm
        rw [hiu, hflat u hu] at hc
        exact hc
      · rw [if_neg hc] at hroot
        exact ⟨fun hcon => hc (by rw [hcon]; exact hrv_root), hi, hroot⟩
    · rintro ⟨hirv, hi, hroot⟩
      refine ⟨hi, ?_⟩
      rw [ufMerge_find hlen h hi, hroot, if_neg hirv]
  have hmem : ufFind uf v ∈ (Finset.range n).filter (fun i => ufFind uf i = i) := by
    simp only [Finset.mem_filter, Finset.mem_range]
    exact ⟨hrv_lt, hrv_root⟩
  rw [rootsCount, rootsCount, hset, Finset.card_erase_of_mem hmem]
  have : 1 ≤ ((Finset.range n).filter (fun i => ufFind uf i = i)).card :=
    Finset.card_pos.mpr ⟨ufFind uf v, hmem⟩
  omega

/-- Class characterization after a successful merge: two elements share a
representative exactly when they did before, or one was in `u`'s class and
the other in `v`'s. -/
theorem ufMerge_find_iff {uf : List Nat} {n u v : Nat} {uf' : List Nat}
    (hwf : UFWf uf n) (hu : u < n) (hv : v < n)
    (h : ufMerge uf u v = some uf') {a b : Nat} (ha : a < n) (hb : b < n) :
    ufFind uf' a = ufFind uf' b ↔
      (ufFind uf a = ufFind uf b ∨
       (ufFind uf a = ufFind uf u ∧ ufFind uf b = ufFind uf v) ∨
       (ufFind uf a = ufFind uf v ∧ ufFind uf b = ufFind uf u)) := by
  have hne := ufMerge_some_ne h
  rw [ufMerge_find hwf.1 h ha, ufMerge_find hwf.1 h hb]
  by_cases h1 : ufFind uf a = ufFind uf v <;> by_cases h2 : ufFind uf b = ufFind uf v
  · rw [if_pos h1, if_pos h2]
    constructor
    · intro _
      exact Or.inl (h1.trans h2.symm)
    · intro _
      rfl
  · rw [if_pos h1, if_neg h2]
    constructor
    · intro heq
      exact Or.inr (Or.inr ⟨h1, heq.symm⟩)
    · rintro (heq | ⟨ha', hb'⟩ | ⟨ha', hb'⟩)
      · exact absurd (h1 ▸ heq.symm) h2
      · exact absurd hb' h2
      · exact hb'.symm
  · rw [if_neg h1, if_pos h2]
    constructor
    · intro heq
      exact Or.inr (Or.inl ⟨heq, h2⟩)
    · rintro (heq | ⟨ha', hb'⟩ | ⟨ha', hb'⟩)
      · exact absurd (h2 ▸ heq) h1
      · exact ha'
      · exact absurd ha' h1
  · rw [if_neg h1, if_neg h2]
    constructor
    · exact Or.inl
    · rintro (heq | ⟨ha', hb'⟩ | ⟨ha', hb'⟩)
      · exact heq
      · exact absurd hb' h2
      · exact absurd ha' h1

/-- Master invariant of the Kruskal scan: starting from a wellformed
union-find whose classes are exactly the connectivity classes of the already
accepted edges, folding over further in-range edges preserves wellformedness
and the class characterization, keeps the accepted list's connectivity equal
to that of all processed edges, accepts exactly one edge per lost root,
keeps endpoints in range, keeps the accepted list acyclic, and appends a
subsequence of the scanned edges. -/
theorem kruskal_fold_spec {n : Nat} :
    ∀ (l : List Edge) (uf : List Nat) (acc : List Edge),
      (∀ e ∈ l, e.u < n ∧ e.v < n) → UFWf uf n →
      (∀ a b, a < n → b < n → (ufFind uf a = ufFind uf b ↔ reach acc a b)) →
      (∀ e ∈ acc, e.u < n ∧ e.v < n) → acyclicEdges acc →
      UFWf (l.foldl kruskalStep (uf, acc)).1 n ∧
      (∀ a b, a < n → b < n →
        (ufFind (l.foldl kruskalStep (uf, acc)).1 a
          = ufFind (l.foldl kruskalStep (uf, acc)).1 b ↔
          reach (l.foldl kruskalStep (uf, acc)).2 a b)) ∧
      (∀ a b, reach (l.foldl kruskalStep (uf, acc)).2 a b ↔ reach (acc ++ l) a b) ∧
      ((l.foldl kruskalStep (uf, acc)).2.length
          + rootsCount (l.foldl kruskalStep (uf, acc)).1 n
        = acc.length + rootsCount uf n) ∧
      (∀ e ∈ (l.foldl kruskalStep (uf, acc)).2, e.u < n ∧ e.v < n) ∧
      acyclicEdges (l.foldl kruskalStep (uf, acc)).2 ∧
      ∃ t, (l.foldl kruskalStep (uf, acc)).2 = acc ++ t ∧ t.Sublist l := by
  intro l
  induction l with
  | nil =>
    intro uf acc _ hwf hiff hacc hacy
    simp only [List.foldl_nil, List.append_nil]
    refine ⟨hwf, hiff, ?_, ?_, hacc, hacy, [], by simp, List.nil_sublist []⟩
    · exact fun _ _ => trivial
    · trivial
  | cons e es ih =>
    intro uf acc hl hwf hiff hacc hacy
    have heu : e.u < n := (hl e (List.mem_cons_self e es)).1
    have hev : e.v < n := (hl e (List.mem_cons_self e es)).2
    have hl' : ∀ f ∈ es, f.u < n ∧ f.v < n :=
      fun f hf => hl f (List.mem_cons_of_mem e hf)
    simp only [List.foldl_cons]
    cases hm : ufMerge uf e.u e.v with
    | none =>
      rw [show kruskalStep (uf, acc) e = (uf, acc) from by simp [kruskalStep, hm]]
      have hfeq : ufFind uf e.u = ufFind uf e.v := by
        by_contra hcon
        have hs := ufMerge_some_iff.mpr hcon
        rw [hm] at hs
        simp at hs
      have hreach : reach acc e.u e.v := (hiff e.u e.v heu hev).mp hfeq
      obtain ⟨w1, w2, w3, w4, w5, w6, w7⟩ := ih uf acc hl' hwf hiff hacc hacy
      refine ⟨w1, w2, ?_, w4, w5, w6, ?_⟩
      · intro a b
        rw [w3 a b]
        have hred : reach (acc ++ es) e.u e.v :=
          reach_mono (fun f hf => List.mem_append_left es hf) hreach
        have hperm : (acc ++ e :: es).Perm ((acc ++ es) ++ [e]) :=
          (List.perm_middle).trans (List.perm_append_singleton e (acc ++ es)).symm
        rw [reach_perm hperm, reach_snoc_redundant hred]
      · obtain ⟨t, ht1, ht2⟩ := w7
        exact ⟨t, ht1, ht2.cons e⟩
    | some uf₁ =>
      rw [show kruskalStep (uf, acc) e = (uf₁, acc ++ [e]) from by
        simp [kruskalStep, hm]]
      have hwf₁ : UFWf uf₁ n := ufMerge_wf hwf heu hev hm
      have hnr : ¬ reach acc e.u e.v := fun hcon =>
        (ufMerge_some_ne hm) ((hiff e.u e.v heu hev).mpr hcon)
      have hiff₁ : ∀ a b, a < n → b < n →
          (ufFind uf₁ a = ufFind uf₁ b ↔ reach (acc ++ [e]) a b) := by
        intro a b ha hb
        rw [ufMerge_find_iff hwf heu hev hm ha hb, reach_append_single]
        constructor
        · rintro (h | ⟨h1, h2⟩ | ⟨h1, h2⟩)
          · exact Or.inl ((hiff a b ha hb).mp h)
          · exact Or.inr (Or.inl ⟨(hiff a e.u ha heu).mp h1,
              reach_symm ((hiff b e.v hb hev).mp h2)⟩)
          · exact Or.inr (Or.inr ⟨(hiff a e.v ha hev).mp h1,
              reach_symm ((hiff b e.u hb heu).mp h2)⟩)
        · rintro (h | ⟨h1, h2⟩ | ⟨h1, h2⟩)
          · exact Or.inl ((hiff a b ha hb).mpr h)
          · exact Or.inr (Or.inl ⟨(hiff a e.u ha heu).mpr h1,
              (hiff b e.v hb hev).mpr (reach_symm h2)⟩)
          · exact Or.inr (Or.inr ⟨(hiff a e.v ha hev).mpr h1,
              (hiff b e.u hb heu).mpr (reach_symm h2)⟩)
      have hacc₁ : ∀ f ∈ acc ++ [e], f.u < n ∧ f.v < n := by
        intro f hf
        rcases List.mem_append.mp hf with hf | hf
        · exact hacc f hf
        · rw [List.mem_singleton] at hf
          subst hf
          exact ⟨heu, hev⟩
      have hacy₁ : acyclicEdges (acc ++ [e]) := acyclic_snoc hacy hnr
      obtain ⟨w1, w2, w3, w4, w5, w6, w7⟩ := ih uf₁ (acc ++ [e]) hl' hwf₁ hiff₁ hacc₁ hacy₁
      refine ⟨w1, w2, ?_, ?_, w5, w6, ?_⟩
      · intro a b
        rw [w3 a b, List.append_assoc]
        exact Iff.rfl
      · rw [w4]
        have hroots := ufMerge_roots hwf heu hev hm
        simp only [List.length_append, List.length_singleton]
        omega
      · obtain ⟨t, ht1, ht2⟩ := w7
        refine ⟨e :: t, ?_, ht2.cons₂ e⟩
        rw [ht1, List.append_assoc]
        rfl

theorem rootsCount_pos {uf : List Nat} {n : Nat} (hn : 1 ≤ n) (hwf : UFWf uf n) :
    1 ≤ rootsCount uf n := by
  refine Finset.card_pos.mpr ⟨ufFind uf 0, ?_⟩
  simp only [Finset.mem_filter, Finset.mem_range]
  exact ⟨hwf.2.1 0 (by omega), hwf.2.2 0 (by omega)⟩

/-- The union-find has exactly one class iff the accepted edges connect all
of `[0, n)`, assuming the classes characterize accepted-edge
connectivity. -/
theorem roots_eq_one_iff {uf : List Nat} {acc : List Edge} {n : Nat} (hn : 1 ≤ n)
    (hwf : UFWf uf n)
    (hiff : ∀ a b, a < n → b < n → (ufFind uf a = ufFind uf b ↔ reach acc a b)) :
    rootsCount uf n = 1 ↔ connectedGraph acc n := by
  constructor
  · intro hone u hu v hv
    refine (hiff u v hu hv).mp ?_
    by_contra hcon
    have hmem1 : ufFind uf u ∈ (Finset.range n).filter (fun i => ufFind uf i = i) := by
      simp only [Finset.mem_filter, Finset.mem_range]
      exact ⟨hwf.2.1 u hu, hwf.2.2 u hu⟩
    have hmem2 : ufFind uf v ∈ (Finset.range n).filter (fun i => ufFind uf i = i) := by
      simp only [Finset.mem_filter, Finset.mem_range]
      exact ⟨hwf.2.1 v hv, hwf.2.2 v hv⟩
    have h2 : 1 < ((Finset.range n).filter (fun i => ufFind uf i = i)).card :=
      Finset.one_lt_card.mpr ⟨ufFind uf u, hmem1, ufFind uf v, hmem2, hcon⟩
    rw [rootsCount] at hone
    omega
  · intro hconn
    rw [rootsCount, Finset.card_eq_one]
    refine ⟨ufFind uf 0, ?_⟩
    ext i
    simp only [Finset.mem_filter, Finset.mem_range, Finset.mem_singleton]
    constructor
    · rintro ⟨hi, hroot⟩
      have := (hiff i 0 hi (by omega)).mpr (hconn i hi 0 (by omega))
      rw [hroot] at this
      exact this
    · intro hi
      subst hi
      exact ⟨hwf.2.1 0 (by omega), hwf.2.2 0 (by omega)⟩

/-- Summary of one full Kruskal run from a fresh union-find. -/
theorem kruskal_run_spec {n : Nat} (l : List Edge)
    (hl : ∀ e ∈ l, e.u < n ∧ e.v < n) :
    UFWf (l.foldl kruskalStep (ufNew n, [])).1 n ∧
    (∀ a b, a < n → b < n →
      (ufFind (l.foldl kruskalStep (ufNew n, [])).1 a
        = ufFind (l.foldl kruskalStep (ufNew n, [])).1 b ↔
        reach (l.foldl kruskalStep (ufNew n, [])).2 a b)) ∧
    (∀ a b, reach (l.foldl kruskalStep (ufNew n, [])).2 a b ↔ reach l a b) ∧
    ((l.foldl kruskalStep (ufNew n, [])).2.length
        + rootsCount (l.foldl kruskalStep (ufNew n, [])).1 n = n) ∧
    (∀ e ∈ (l.foldl kruskalStep (ufNew n, [])).2, e.u < n ∧ e.v < n) ∧
    acyclicEdges (l.foldl kruskalStep (ufNew n, [])).2 ∧
    (l.foldl kruskalStep (ufNew n, [])).2.Sublist l := by
  have hiff0 : ∀ a b, a < n → b < n →
      (ufFind (ufNew n) a = ufFind (ufNew n) b ↔ reach ([] : List Edge) a b) := by
    intro a b ha hb
    rw [ufFind_ufNew ha, ufFind_ufNew hb]
    constructor
    · intro h; subst h; exact Relation.ReflTransGen.refl
    · intro h; exact reach_nil h
  have hacy0 : acyclicEdges ([] : List Edge) := fun e he => absurd he (by simp)
  obtain ⟨w1, w2, w3, w4, w5, w6, t, ht1, ht2⟩ :=
    kruskal_fold_spec l (ufNew n) [] hl (ufNew_wf n) hiff0 (by simp) hacy0
  refine ⟨w1, w2, ?_, ?_, w5, w6, ?_⟩
  · intro a b
    rw [w3 a b]
    rfl
  · rw [w4, rootsCount_ufNew]
    simp
  · rw [ht1]
    simpa using ht2

/-- Acyclicity descends along sub-multisets. -/
theorem acyclic_subperm {E' E : List Edge} (hs : E'.Subperm E)
    (h : acyclicEdges E) : acyclicEdges E' := by
  intro e he
  have hmemE : e ∈ E := hs.subset he
  intro hred
  apply h e hmemE
  refine reach_mono ?_ hred
  intro f hf
  have hsub : (E'.erase e).Subperm (E.erase e) := hs.erase e
  exact hsub.subset hf

/-- Every edge of an acyclic list is accepted by the Kruskal scan, and the
accepted count equals `n` minus the remaining classes: the rank formula of a
forest. -/
theorem acyclic_fold_accepts_all {n : Nat} (F : List Edge)
    (hb : ∀ e ∈ F, e.u < n ∧ e.v < n) (hacy : acyclicEdges F) :
    (F.foldl kruskalStep (ufNew n, [])).2 = F ∧
    F.length + rootsCount ((F.foldl kruskalStep (ufNew n, [])).1) n = n := by
  induction F using List.reverseRecOn with
  | nil => exact ⟨rfl, by simpa using rootsCount_ufNew n⟩
  | append_singleton F e ih =>
    have hbF : ∀ f ∈ F, f.u < n ∧ f.v < n :=
      fun f hf => hb f (List.mem_append_left [e] hf)
    have hbe : e.u < n ∧ e.v < n := hb e (List.mem_append_right F (by simp))
    have hacyF : acyclicEdges F :=
      acyclic_subperm (List.Sublist.subperm (by simp)) hacy
    have hemem : e ∉ F := by
      intro hcon
      apply hacy e (List.mem_append_left [e] hcon)
      rw [List.erase_append_left [e] hcon]
      refine Relation.ReflTransGen.single ⟨e, ?_, Or.inl ⟨rfl, rfl⟩⟩
      exact List.mem_append_right _ (by simp)
    have hnr : ¬ reach F e.u e.v := by
      have hae := hacy e (List.mem_append_right F (by simp))
      rw [List.erase_append_right [e] hemem] at hae
      simpa using hae
    obtain ⟨ihacc, ihlen⟩ := ih hbF hacyF
    obtain ⟨w1, w2, _, _, _, _, _⟩ := kruskal_run_spec (n := n) F hbF
    have hfind : ufFind (F.foldl kruskalStep (ufNew n, [])).1 e.u
        ≠ ufFind (F.foldl kruskalStep (ufNew n, [])).1 e.v := by
      intro hcon
      apply hnr
      have := (w2 e.u e.v hbe.1 hbe.2).mp hcon
      rw [ihacc] at this
      exact this
    obtain ⟨uf₁, hm⟩ := Option.isSome_iff_exists.mp (ufMerge_some_iff.mpr hfind)
    rw [List.foldl_append]
    constructor
    · simp only [List.foldl_cons, List.foldl_nil]
      rw [show kruskalStep (F.foldl kruskalStep (ufNew n, [])) e
          = (uf₁, (F.foldl kruskalStep (ufNew n, [])).2 ++ [e]) from by
        simp [kruskalStep, hm]]
      rw [ihacc]
    · simp only [List.foldl_cons, List.foldl_nil]
      rw [show kruskalStep (F.foldl kruskalStep (ufNew n, [])) e
          = (uf₁, (F.foldl kruskalStep (ufNew n, [])).2 ++ [e]) from by
        simp [kruskalStep, hm]]
      have hroots := ufMerge_roots w1 hbe.1 hbe.2 hm
      simp only [List.length_append, List.length_singleton]
      omega

/-- If one union-find's classes refine another's, the coarser one has no
more roots. -/
theorem roots_le_of_imp {ufF ufG : List Nat} {n : Nat}
    (hwfF : UFWf ufF n) (hwfG : UFWf ufG n)
    (himp : ∀ a b, a < n → b < n → ufFind ufF a = ufFind ufF b →
      ufFind ufG a = ufFind ufG b) :
    rootsCount ufG n ≤ rootsCount ufF n := by
  rw [rootsCount, rootsCount]
  refine Finset.card_le_card_of_surjOn (fun x => ufFind ufG x) ?_
  intro y hy
  simp only [Finset.coe_filter, Set.mem_setOf_eq, Finset.mem_range] at hy
  obtain ⟨hyn, hyroot⟩ := hy
  refine ⟨ufFind ufF y, ?_, ?_⟩
  · simp only [Finset.coe_filter, Set.mem_setOf_eq, Finset.mem_range]
    exact ⟨hwfF.2.1 y hyn, hwfF.2.2 y hyn⟩
  · have heq : ufFind ufF y = ufFind ufF (ufFind ufF y) := (hwfF.2.2 y hyn).symm
    have hgg := himp y (ufFind ufF y) hyn (hwfF.2.1 y hyn) heq
    show ufFind ufG (ufFind ufF y) = y
    rw [← hgg]
    exact hyroot

/-- Number of `true` entries of a selection mask. -/
def countTrue (m : List Bool) : Nat := m.countP id

/-- Selection of a sublist by a Boolean mask (positions with `true` are
kept). -/
def maskSelect : List Bool → List Edge → List Edge
  | [], _ => []
  | _, [] => []
  | true :: ms, e :: es => e :: maskSelect ms es
  | false :: ms, e :: es => maskSelect ms es

theorem countTrue_cons_true (m : List Bool) : countTrue (true :: m) = countTrue m + 1 := by
  simp [countTrue, List.countP_cons]

theorem countTrue_cons_false (m : List Bool) : countTrue (false :: m) = countTrue m := by
  simp [countTrue, List.countP_cons]

theorem maskSelect_nil_right : ∀ m : List Bool, maskSelect m [] = [] := by
  intro m
  cases m with
  | nil => rfl
  | cons b ms => cases b <;> rfl

/-- Positions of the `true` entries of a mask, offset by `k`. -/
def truePos : List Bool → Nat → List Nat
  | [], _ => []
  | true :: ms, k => k :: truePos ms (k + 1)
  | false :: ms, k => truePos ms (k + 1)

/-- Acceptance mask of the Kruskal scan: `true` at the edges the scan
accepts, threading the union-find state. -/
def kruskalMask (uf : List Nat) : List Edge → List Bool
  | [] => []
  | e :: es =>
    match ufMerge uf e.u e.v with
    | none => false :: kruskalMask uf es
    | some uf₁ => true :: kruskalMask uf₁ es

theorem kruskal_fold_acc :
    ∀ (l : List Edge) (uf : List Nat) (acc : List Edge),
      (l.foldl kruskalStep (uf, acc)).2 = acc ++ (l.foldl kruskalStep (uf, [])).2 := by
  intro l
  induction l with
  | nil => intro uf acc; simp
  | cons e es ih =>
    intro uf acc
    simp only [List.foldl_cons]
    cases hm : ufMerge uf e.u e.v with
    | none =>
      rw [show kruskalStep (uf, acc) e = (uf, acc) from by simp [kruskalStep, hm]]
      rw [show kruskalStep (uf, []) e = (uf, []) from by simp [kruskalStep, hm]]
      exact ih uf acc
    | some uf₁ =>
      rw [show kruskalStep (uf, acc) e = (uf₁, acc ++ [e]) from by simp [kruskalStep, hm]]
      rw [show kruskalStep (uf, []) e = (uf₁, [e]) from by simp [kruskalStep, hm]]
      rw [ih uf₁ (acc ++ [e]), ih uf₁ [e], List.append_assoc]

theorem maskSelect_kruskalMask :
    ∀ (l : List Edge) (uf : List Nat),
      maskSelect (kruskalMask uf l) l = (l.foldl kruskalStep (uf, [])).2 := by
  intro l
  induction l with
  | nil => intro uf; rfl
  | cons e es ih =>
    intro uf
    simp only [kruskalMask, List.foldl_cons]
    cases hm : ufMerge uf e.u e.v with
    | none =>
      rw [show kruskalStep (uf, []) e = (uf, []) from by simp [kruskalStep, hm]]
      exact ih uf
    | some uf₁ =>
      rw [show kruskalStep (uf, []) e = (uf₁, [e]) from by simp [kruskalStep, hm]]
      show e :: maskSelect (kruskalMask uf₁ es) es = (es.foldl kruskalStep (uf₁, [e])).2
      rw [kruskal_fold_acc es uf₁ [e], ih uf₁]
      rfl

theorem countTrue_kruskalMask_take :
    ∀ (l : List Edge) (uf : List Nat) (i : Nat),
      countTrue ((kruskalMask uf l).take i)
        = ((l.take i).foldl kruskalStep (uf, [])).2.length := by
  intro l
  induction l with
  | nil => intro uf i; simp [kruskalMask, countTrue]
  | cons e es ih =>
    intro uf i
    cases i with
    | zero => simp [countTrue]
    | succ i =>
      simp only [kruskalMask, List.take_succ_cons, List.foldl_cons]
      cases hm : ufMerge uf e.u e.v with
      | none =>
        rw [show kruskalStep (uf, []) e = (uf, []) from by simp [kruskalStep, hm]]
        show countTrue (false :: (kruskalMask uf es).take i)
          = ((es.take i).foldl kruskalStep (uf, [])).2.length
        rw [countTrue_cons_false, ih uf i]
      | some uf₁ =>
        rw [show kruskalStep (uf, []) e = (uf₁, [e]) from by simp [kruskalStep, hm]]
        show countTrue (true :: (kruskalMask uf₁ es).take i)
          = ((es.take i).foldl kruskalStep (uf₁, [e])).2.length
        rw [kruskal_fold_acc (es.take i) uf₁ [e]]
        rw [countTrue_cons_true, ih uf₁ i]
        simp [Nat.add_comm]

theorem kruskalMask_length : ∀ (l : List Edge) (uf : List Nat),
    (kruskalMask uf l).length = l.length := by
  intro l
  induction l with
  | nil => intro uf; rfl
  | cons e es ih =>
    intro uf
    simp only [kruskalMask]
    cases hm : ufMerge uf e.u e.v with
    | none => simp [ih]
    | some uf₁ => simp [ih]

theorem maskSelect_sublist : ∀ (m : List Bool) (l : List Edge),
    (maskSelect m l).Sublist l := by
  intro m
  induction m with
  | nil => intro l; simp [maskSelect]
  | cons b ms ih =>
    intro l
    cases l with
    | nil => simp [maskSelect]
    | cons e es =>
      cases b with
      | true => exact (ih es).cons₂ e
      | false => exact (ih es).cons e

theorem maskSelect_take_drop : ∀ (i : Nat) (m : List Bool) (l : List Edge),
    maskSelect m l = maskSelect (m.take i) (l.take i)
      ++ maskSelect (m.drop i) (l.drop i) := by
  intro i
  induction i with
  | zero => intro m l; simp [maskSelect]
  | succ i ih =>
    intro m l
    cases m with
    | nil => simp [maskSelect]
    | cons b ms =>
      cases l with
      | nil => cases b <;> simp [maskSelect, maskSelect_nil_right]
      | cons e es =>
        cases b with
        | true =>
          simp only [maskSelect, List.take_succ_cons, List.drop_succ_cons, List.cons_append]
          rw [← ih ms es]
        | false =>
          simp only [maskSelect, List.take_succ_cons, List.drop_succ_cons]
          exact ih ms es

theorem sublist_exists_mask {S l : List Edge} (h : S.Sublist l) :
    ∃ m, m.length = l.length ∧ maskSelect m l = S := by
  induction h with
  | slnil => exact ⟨[], rfl, rfl⟩
  | cons a _ ih =>
    obtain ⟨m, hm1, hm2⟩ := ih
    exact ⟨false :: m, by simp [hm1], by simp [maskSelect, hm2]⟩
  | cons₂ a _ ih =>
    obtain ⟨m, hm1, hm2⟩ := ih
    exact ⟨true :: m, by simp [hm1], by simp [maskSelect, hm2]⟩

theorem maskSelect_length : ∀ (m : List Bool) (l : List Edge),
    m.length = l.length → (maskSelect m l).length = countTrue m := by
  intro m
  induction m with
  | nil => intro l _; simp [maskSelect, countTrue]
  | cons b ms ih =>
    intro l hlen
    cases l with
    | nil => simp at hlen
    | cons e es =>
      simp only [List.length_cons] at hlen
      cases b with
      | true =>
        simp only [maskSelect, List.length_cons]
        rw [countTrue_cons_true, ih es (by omega)]
      | false =>
        simp only [maskSelect]
        rw [countTrue_cons_false, ih es (by omega)]

theorem truePos_ge : ∀ (m : List Bool) (k x : Nat), x ∈ truePos m k → k ≤ x := by
  intro m
  induction m with
  | nil => intro k x hx; simp [truePos] at hx
  | cons b ms ih =>
    intro k x hx
    cases b with
    | true =>
      simp only [truePos, List.mem_cons] at hx
      rcases hx with hx | hx
      · omega
      · have := ih (k + 1) x hx; omega
    | false =>
      simp only [truePos] at hx
      have := ih (k + 1) x hx; omega

theorem truePos_lt : ∀ (m : List Bool) (k x : Nat),
    x ∈ truePos m k → x < k + m.length := by
  intro m
  induction m with
  | nil => intro k x hx; simp [truePos] at hx
  | cons b ms ih =>
    intro k x hx
    cases b with
    | true =>
      simp only [truePos, List.mem_cons] at hx
      rcases hx with hx | hx
      · simp [hx]
      · have := ih (k + 1) x hx; simp only [List.length_cons]; omega
    | false =>
      simp only [truePos] at hx
      have := ih (k + 1) x hx; simp only [List.length_cons]; omega

theorem truePos_pairwise : ∀ (m : List Bool) (k : Nat),
    (truePos m k).Pairwise (· < ·) := by
  intro m
  induction m with
  | nil => intro k; simp [truePos]
  | cons b ms ih =>
    intro k
    cases b with
    | true =>
      simp only [truePos]
      refine List.Pairwise.cons ?_ (ih (k + 1))
      intro x hx
      have := truePos_ge ms (k + 1) x hx
      omega
    | false => exact ih (k + 1)

theorem truePos_length : ∀ (m : List Bool) (k : Nat),
    (truePos m k).length = countTrue m := by
  intro m
  induction m with
  | nil => intro k; rfl
  | cons b ms ih =>
    intro k
    cases b with
    | true =>
      simp only [truePos, List.length_cons]
      rw [countTrue_cons_true, ← ih (k + 1)]
    | false =>
      simp only [truePos]
      rw [countTrue_cons_false, ← ih (k + 1)]

theorem truePos_countP : ∀ (m : List Bool) (k i : Nat),
    (truePos m k).countP (fun x => decide (x < k + i)) = countTrue (m.take i) := by
  intro m
  induction m with
  | nil => intro k i; simp [truePos, countTrue]
  | cons b ms ih =>
    intro k i
    cases i with
    | zero =>
      simp only [List.take_zero, countTrue, List.countP_nil]
      rw [List.countP_eq_zero]
      intro x hx
      have := truePos_ge (b :: ms) k x hx
      simp only [decide_eq_true_eq]
      omega
    | succ i =>
      have hpred : (fun x => decide (x < k + (i + 1))) = (fun x => decide (x < (k + 1) + i)) := by
        have harith : k + (i + 1) = (k + 1) + i := by omega
        rw [harith]
      cases b with
      | true =>
        simp only [truePos, List.take_succ_cons, List.countP_cons]
        rw [countTrue_cons_true, hpred, ih (k + 1) i]
        have hk : k < k + (i + 1) := by omega
        simp [hk]
      | false =>
        simp only [truePos, List.take_succ_cons]
        rw [countTrue_cons_false, hpred, ih (k + 1) i]

/-- Default edge for out-of-range `getD` accesses; never reached under the
bounds carried through the proofs. -/
def defaultEdge : Edge := ⟨0, 0, 0⟩

theorem maskSelect_eq_map :
    ∀ (m : List Bool) (l pre : List Edge), m.length = l.length →
      (truePos m pre.length).map (fun j => (pre ++ l).getD j defaultEdge)
        = maskSelect m l := by
  intro m
  induction m with
  | nil => intro l pre _; simp [truePos, maskSelect]
  | cons b ms ih =>
    intro l pre hlen
    cases l with
    | nil => simp at hlen
    | cons e es =>
      simp only [List.length_cons] at hlen
      cases b with
      | true =>
        simp only [truePos, List.map_cons, maskSelect]
        have hhead : (pre ++ e :: es).getD pre.length defaultEdge = e := by
          rw [List.getD_eq_getElem?_getD, List.getElem?_append_right (le_refl pre.length)]
          simp
        have htail := ih es (pre ++ [e]) (by omega)
        rw [List.length_append, List.length_singleton, List.append_assoc,
          List.singleton_append] at htail
        rw [hhead]
        exact congrArg (List.cons e) htail
      | false =>
        simp only [truePos, maskSelect]
        have htail := ih es (pre ++ [e]) (by omega)
        rw [List.length_append, List.length_singleton, List.append_assoc,
          List.singleton_append] at htail
        exact htail

theorem pairwise_lt_get {u : List Nat} (hu : u.Pairwise (· < ·)) :
    ∀ (i j : Nat) (hi : i < u.length) (hj : j < u.length), i ≤ j → u[i] ≤ u[j] := by
  intro i j hi hj hij
  rcases Nat.lt_or_ge i j with h | h
  · exact le_of_lt ((List.pairwise_iff_get.mp hu) ⟨i, hi⟩ ⟨j, hj⟩ h)
  · have : i = j := by omega
    subst this
    exact le_refl _

/-- Prefix-count dominance between two strictly increasing position lists
forces pointwise dominance. -/
theorem incr_pointwise {u v : List Nat} (hu : u.Pairwise (· < ·))
    (hv : v.Pairwise (· < ·))
    (hdom : ∀ i, v.countP (fun x => decide (x < i)) ≤ u.countP (fun x => decide (x < i))) :
    ∀ j, ∀ (hju : j < u.length) (hjv : j < v.length), u[j] ≤ v[j] := by
  intro j hju hjv
  by_contra hcon
  push_neg at hcon
  have h1 : j + 1 ≤ v.countP (fun x => decide (x < v[j] + 1)) := by
    have hall : ∀ x ∈ v.take (j + 1), x < v[j] + 1 := by
      intro x hx
      obtain ⟨idx, hidx, hxeq⟩ := List.mem_iff_getElem.mp hx
      have hidx' : idx < v.length ∧ idx ≤ j := by
        simp only [List.length_take] at hidx
        omega
      rw [List.getElem_take] at hxeq
      have := pairwise_lt_get hv idx j hidx'.1 hjv hidx'.2
      omega
    have hcp : (v.take (j + 1)).countP (fun x => decide (x < v[j] + 1))
        = (v.take (j + 1)).length := by
      rw [List.countP_eq_length]
      intro a ha
      simp only [decide_eq_true_eq]
      exact hall a ha
    have hlentake : (v.take (j + 1)).length = j + 1 := by
      simp only [List.length_take]
      omega
    have hsplit := List.countP_append (fun x => decide (x < v[j] + 1))
      (v.take (j + 1)) (v.drop (j + 1))
    rw [List.take_append_drop] at hsplit
    omega
  have h2 : u.countP (fun x => decide (x < v[j] + 1)) ≤ j := by
    have hzero : (u.drop j).countP (fun x => decide (x < v[j] + 1)) = 0 := by
      rw [List.countP_eq_zero]
      intro a ha
      obtain ⟨idx, hidx, haeq⟩ := List.mem_iff_getElem.mp ha
      rw [List.getElem_drop] at haeq
      have hjidx : j + idx < u.length := by
        simp only [List.length_drop] at hidx
        omega
      have := pairwise_lt_get hu j (j + idx) hju hjidx (by omega)
      simp only [decide_eq_true_eq]
      omega
    have htle : (u.take j).countP (fun x => decide (x < v[j] + 1))
        ≤ (u.take j).length := List.countP_le_length _
    have hlentake : (u.take j).length ≤ j := by
      simp [List.length_take]
    have hsplit := List.countP_append (fun x => decide (x < v[j] + 1))
      (u.take j) (u.drop j)
    rw [List.take_append_drop] at hsplit
    omega
  have := hdom (v[j] + 1)
  omega

/-- Pointwise-dominated position lists select a list of no larger total
weight from an ascending weight array. -/
theorem sum_map_getD_le (ws : List ℚ) (hsort : ws.Pairwise (· ≤ ·)) :
    ∀ (u v : List Nat), u.length = v.length →
      (∀ j, ∀ (hju : j < u.length) (hjv : j < v.length), u[j] ≤ v[j]) →
      (∀ x ∈ v, x < ws.length) →
      (u.map (fun j => ws.getD j 0)).sum ≤ (v.map (fun j => ws.getD j 0)).sum := by
  intro u
  induction u with
  | nil =>
    intro v hlen _ _
    have : v = [] := List.length_eq_zero.mp hlen.symm
    subst this
    simp
  | cons a us ih =>
    intro v hlen hpt hbnd
    cases v with
    | nil => simp at hlen
    | cons b vs =>
      simp only [List.map_cons, List.sum_cons]
      have hab : a ≤ b := hpt 0 (by simp) (by simp)
      have hblt : b < ws.length := hbnd b (List.mem_cons_self b vs)
      have halt : a < ws.length := by omega
      have hhead : ws.getD a 0 ≤ ws.getD b 0 := by
        rw [List.getD_eq_getElem?_getD, List.getD_eq_getElem?_getD,
          List.getElem?_eq_getElem halt, List.getElem?_eq_getElem hblt]
        simp only [Option.getD_some]
        rcases Nat.lt_or_ge a b with h | h
        · exact (List.pairwise_iff_get.mp hsort) ⟨a, halt⟩ ⟨b, hblt⟩ h
        · have hab' : a = b := by omega
          subst hab'
          exact le_refl _
      have htail : (us.map (fun j => ws.getD j 0)).sum
          ≤ (vs.map (fun j => ws.getD j 0)).sum := by
        refine ih vs (by simpa using hlen) ?_ (fun x hx => hbnd x (List.mem_cons_of_mem b hx))
        intro j hju hjv
        have := hpt (j + 1) (by simpa using Nat.succ_lt_succ hju)
          (by simpa using Nat.succ_lt_succ hjv)
        simpa using this
      exact add_le_add hhead htail

instance : IsTotal Edge (fun a b => a.w ≤ b.w) := ⟨fun a b => le_total a.w b.w⟩

instance : IsTrans Edge (fun a b => a.w ≤ b.w) := ⟨fun _ _ _ h1 h2 => le_trans h1 h2⟩

theorem sortEdges_perm (l : List Edge) : (sortEdges l).Perm l :=
  List.perm_insertionSort _ l

theorem sortEdges_sorted (l : List Edge) :
    (sortEdges l).Pairwise (fun a b => a.w ≤ b.w) :=
  List.sorted_insertionSort _ l

/-- Total weight of an edge list (`Edge.w` carries the weight). -/
def totalWeight (l : List Edge) : ℚ := (l.map Edge.w).sum

/-- Greedy dominance: among any first `i` scanned edges, the Kruskal scan
accepts at least as many edges as any acyclic mask selects, because an
acyclic selection inside the first `i` edges has size `n` minus its own
class count, which is at least the class count of all first `i` edges. -/
theorem mask_count_dominance {n : Nat} (sorted : List Edge)
    (hb : ∀ e ∈ sorted, e.u < n ∧ e.v < n)
    {S' : List Edge} {mS : List Bool} (hmlen : mS.length = sorted.length)
    (hmsel : maskSelect mS sorted = S') (hacS : acyclicEdges S') (i : Nat) :
    countTrue (mS.take i) ≤ countTrue ((kruskalMask (ufNew n) sorted).take i) := by
  have hFdef : maskSelect (mS.take i) (sorted.take i)
      ++ maskSelect (mS.drop i) (sorted.drop i) = S' := by
    rw [← maskSelect_take_drop i mS sorted, hmsel]
  have hFsub : (maskSelect (mS.take i) (sorted.take i)).Sublist S' := by
    rw [← hFdef]
    exact List.sublist_append_left _ _
  have hFacy : acyclicEdges (maskSelect (mS.take i) (sorted.take i)) :=
    acyclic_subperm hFsub.subperm hacS
  have hFmem : ∀ e ∈ maskSelect (mS.take i) (sorted.take i), e ∈ sorted.take i :=
    fun e hmem => (maskSelect_sublist _ _).subset hmem
  have hFb : ∀ e ∈ maskSelect (mS.take i) (sorted.take i), e.u < n ∧ e.v < n :=
    fun e hmem => hb e (List.mem_of_mem_take (hFmem e hmem))
  have htb : ∀ e ∈ sorted.take i, e.u < n ∧ e.v < n :=
    fun e hmem => hb e (List.mem_of_mem_take hmem)
  obtain ⟨hFacc, hFrank⟩ := acyclic_fold_accepts_all (n := n) _ hFb hFacy
  obtain ⟨g1, g2, g3, g4, _, _, _⟩ := kruskal_run_spec (n := n) (sorted.take i) htb
  obtain ⟨f1, f2, _, _, _, _, _⟩ :=
    kruskal_run_spec (n := n) (maskSelect (mS.take i) (sorted.take i)) hFb
  have hroots_le : rootsCount ((sorted.take i).foldl kruskalStep (ufNew n, [])).1 n
      ≤ rootsCount ((maskSelect (mS.take i) (sorted.take i)).foldl kruskalStep
          (ufNew n, [])).1 n := by
    refine roots_le_of_imp f1 g1 ?_
    intro a b ha hbn hfeq
    refine (g2 a b ha hbn).mpr ?_
    refine (g3 a b).mpr ?_
    have hrF := (f2 a b ha hbn).mp hfeq
    rw [hFacc] at hrF
    exact reach_mono hFmem hrF
  have hclen : countTrue (mS.take i) = (maskSelect (mS.take i) (sorted.take i)).length := by
    refine (maskSelect_length _ _ ?_).symm
    simp only [List.length_take, hmlen]
  rw [hclen, countTrue_kruskalMask_take]
  omega

/-- A connected edge list with `n - 1` edges over `[0, n)` is acyclic. -/
theorem connected_pred_acyclic {S : List Edge} {n : Nat}
    (hb : ∀ e ∈ S, e.u < n ∧ e.v < n) (hn : 1 ≤ n)
    (hconn : connectedGraph S n) (hlen : S.length = n - 1) : acyclicEdges S := by
  intro e he hred
  have hn2 : 2 ≤ n := by
    by_contra hcon
    have hn1 : n = 1 := by omega
    rw [hn1] at hlen
    simp only [Nat.sub_self] at hlen
    rw [List.length_eq_zero.mp hlen] at he
    simp at he
  have hbe : ∀ f ∈ S.erase e, f.u < n ∧ f.v < n :=
    fun f hf => hb f (List.mem_of_mem_erase hf)
  obtain ⟨w1, w2, w3, w4, _, _, wsub⟩ := kruskal_run_spec (n := n) (S.erase e) hbe
  have hconn' : connectedGraph (S.erase e) n := fun u hu v hv =>
    (reach_erase_redundant he hred).mp (hconn u hu v hv)
  have hroots1 : rootsCount ((S.erase e).foldl kruskalStep (ufNew n, [])).1 n = 1 := by
    rw [roots_eq_one_iff (by omega) w1 w2]
    intro u hu v hv
    exact (w3 u v).mpr (hconn' u hu v hv)
  have herlen : (S.erase e).length = S.length - 1 := List.length_erase_of_mem he
  have haccle := wsub.length_le
  omega

/-- C2.  For every edge list over `n` vertices whose underlying graph is
connected, `exact_mst_krusal` returns a spanning tree of that graph: exactly
`n - 1` edges, drawn from the input edges, connecting all `n` vertices,
acyclic, and of minimum possible total weight among all spanning trees of
the input edge list (any sub-multiset of the input with `n - 1` edges that
connects all `n` vertices). -/
theorem exact_mst_krusal_spec {edges : List Edge} {n : Nat}
    (he : ∀ e ∈ edges, e.u < n ∧ e.v < n) (hn : 1 ≤ n)
    (hc : connectedGraph edges n) :
    (exact_mst_krusal edges n).length = n - 1 ∧
    (exact_mst_krusal edges n).Subperm edges ∧
    connectedGraph (exact_mst_krusal edges n) n ∧
    acyclicEdges (exact_mst_krusal edges n) ∧
    (∀ S, S.Subperm edges → S.length = n - 1 → connectedGraph S n →
      totalWeight (exact_mst_krusal edges n) ≤ totalWeight S) := by
  have hperm := sortEdges_perm edges
  have hbs : ∀ e ∈ sortEdges edges, e.u < n ∧ e.v < n :=
    fun e hes => he e (hperm.mem_iff.mp hes)
  obtain ⟨w1, w2, w3, w4, w5, w6, wsub⟩ := kruskal_run_spec (n := n) (sortEdges edges) hbs
  have hreachT : ∀ a b, reach (exact_mst_krusal edges n) a b ↔ reach edges a b := by
    intro a b
    rw [exact_mst_krusal, w3 a b]
    exact reach_perm hperm
  have hconnT : connectedGraph (exact_mst_krusal edges n) n :=
    fun u hu v hv => (hreachT u v).mpr (hc u hu v hv)
  have hroots : rootsCount ((sortEdges edges).foldl kruskalStep (ufNew n, [])).1 n = 1 := by
    rw [roots_eq_one_iff hn w1 w2]
    intro u hu v hv
    exact (w3 u v).mpr ((reach_perm hperm).mpr (hc u hu v hv))
  have hlenT : (exact_mst_krusal edges n).length = n - 1 := by
    rw [exact_mst_krusal]
    omega
  have hsubT : (exact_mst_krusal edges n).Subperm edges := by
    rw [exact_mst_krusal]
    exact wsub.subperm.trans hperm.subperm
  refine ⟨hlenT, hsubT, hconnT, by rw [exact_mst_krusal]; exact w6, ?_⟩
  intro S hS hSlen hSconn
  have hSsp : S.Subperm (sortEdges edges) := hS.trans hperm.symm.subperm
  obtain ⟨S', hSp, hSs⟩ := hSsp
  have hSlen' : S'.length = n - 1 := by rw [hSp.length_eq, hSlen]
  have hSb : ∀ f ∈ S', f.u < n ∧ f.v < n :=
    fun f hf => hbs f (hSs.subset hf)
  have hSconn' : connectedGraph S' n := fun u hu v hv =>
    (reach_perm hSp).mpr (hSconn u hu v hv)
  have hSacy : acyclicEdges S' := connected_pred_acyclic hSb hn hSconn' hSlen'
  obtain ⟨mS, hmS1, hmS2⟩ := sublist_exists_mask hSs
  have hdomc : ∀ i, countTrue (mS.take i)
      ≤ countTrue ((kruskalMask (ufNew n) (sortEdges edges)).take i) :=
    fun i => mask_count_dominance (sortEdges edges) hbs hmS1 hmS2 hSacy i
  have hTsel : maskSelect (kruskalMask (ufNew n) (sortEdges edges)) (sortEdges edges)
      = exact_mst_krusal edges n := by
    rw [maskSelect_kruskalMask, exact_mst_krusal]
  have hcTT : countTrue (kruskalMask (ufNew n) (sortEdges edges)) = n - 1 := by
    rw [← maskSelect_length _ _ (kruskalMask_length (sortEdges edges) (ufNew n)), hTsel]
    exact hlenT
  have hcTS : countTrue mS = n - 1 := by
    rw [← maskSelect_length mS _ hmS1, hmS2]
    exact hSlen'
  have hcount : ∀ (m : List Bool) (i : Nat),
      (truePos m 0).countP (fun x => decide (x < i)) = countTrue (m.take i) := by
    intro m i
    have := truePos_countP m 0 i
    simpa using this
  have hulen : (truePos (kruskalMask (ufNew n) (sortEdges edges)) 0).length
      = (truePos mS 0).length := by
    rw [truePos_length, truePos_length, hcTT, hcTS]
  have hpt := incr_pointwise
    (truePos_pairwise (kruskalMask (ufNew n) (sortEdges edges)) 0)
    (truePos_pairwise mS 0)
    (fun i => by rw [hcount, hcount]; exact hdomc i)
  have hws_sorted : ((sortEdges edges).map Edge.w).Pairwise (· ≤ ·) := by
    rw [List.pairwise_map]
    exact sortEdges_sorted edges
  have hbridge : ∀ (m : List Bool), m.length = (sortEdges edges).length →
      totalWeight (maskSelect m (sortEdges edges))
        = ((truePos m 0).map
            (fun j => ((sortEdges edges).map Edge.w).getD j 0)).sum := by
    intro m hm
    rw [totalWeight, ← maskSelect_eq_map m (sortEdges edges) [] hm]
    simp only [List.nil_append, List.length_nil, List.map_map]
    refine congrArg List.sum (List.map_congr_left ?_)
    intro j hj
    have hjlt : j < (sortEdges edges).length := by
      have := truePos_lt m 0 j hj
      omega
    simp only [Function.comp]
    rw [List.getD_eq_getElem?_getD, List.getD_eq_getElem?_getD,
      List.getElem?_eq_getElem hjlt, List.getElem?_eq_getElem (by simpa using hjlt)]
    simp [List.getElem_map]
  have hS'bnd : ∀ x ∈ truePos mS 0, x < ((sortEdges edges).map Edge.w).length := by
    intro x hx
    have := truePos_lt mS 0 x hx
    simp only [List.length_map]
    omega
  have hmain : totalWeight (exact_mst_krusal edges n) ≤ totalWeight S' := by
    rw [← hTsel, ← hmS2]
    rw [hbridge _ (kruskalMask_length (sortEdges edges) (ufNew n)), hbridge _ hmS1]
    exact sum_map_getD_le _ hws_sorted _ _ hulen hpt hS'bnd
  have hsum : totalWeight S' = totalWeight S := by
    rw [totalWeight, totalWeight]
    exact (hSp.map Edge.w).sum_eq
  rw [← hsum]
  exact hmain

/-- Witness for C2 on the single-edge connected graph over two vertices:
the returned tree has exactly one edge. -/
theorem exact_mst_krusal_spec_witness :
    (exact_mst_krusal [⟨0, 1, 1⟩] 2).length = 2 - 1 :=
  (@exact_mst_krusal_spec [⟨0, 1, 1⟩] 2 (by decide) (by omega)
    (by
      intro u hu v hv
      have hadj : adjacent [⟨0, 1, 1⟩] 0 1 :=
        ⟨⟨0, 1, 1⟩, List.mem_singleton_self _, Or.inl ⟨rfl, rfl⟩⟩
      interval_cases u <;> interval_cases v
      · exact Relation.ReflTransGen.refl
      · exact Relation.ReflTransGen.single hadj
      · exact reach_symm (Relation.ReflTransGen.single hadj)
      · exact Relation.ReflTransGen.refl)).1

theorem localBfsAux_mem (points : List (List ℚ)) (gr : ℚ) :
    ∀ (fuel : Nat) (b : List Nat), ∀ e ∈ localBfsAux points gr fuel b,
      e.u ∈ b ∧ e.v ∈ b := by
  intro fuel
  induction fuel with
  | zero => intro b e he; simp [localBfsAux] at he
  | succ f ih =>
    intro b e he
    simp only [localBfsAux] at he
    cases hlast : b.getLast? with
    | none => rw [hlast] at he; simp at he
    | some x =>
      rw [hlast] at he
      have hb : b.dropLast ++ [x] = b := List.dropLast_append_getLast? x hlast
      simp only [List.mem_append] at he
      rcases he with he | he
      · obtain ⟨h1, h2, _, _, _⟩ := scanNear_sound points gr x _ e he
        constructor
        · rw [h1, ← hb]; exact List.mem_append_right _ (by simp)
        · rw [← hb]; exact List.mem_append_left _ h2
      · obtain ⟨h1, h2⟩ := ih _ e he
        have hfar := scanNear_far_sublist points gr x b.dropLast
        constructor
        · rw [← hb]; exact List.mem_append_left _ (hfar.subset h1)
        · rw [← hb]; exact List.mem_append_left _ (hfar.subset h2)

theorem gamma_kt_edges_bounds (points : List (List ℚ)) (gamma : ℚ)
    (passes : List (ℚ × List (List Nat))) {n : Nat}
    (hbk : ∀ rb ∈ passes, ∀ b ∈ rb.2, ∀ x ∈ b, x < n) :
    ∀ e ∈ gamma_kt_passes points gamma passes, e.u < n ∧ e.v < n := by
  intro e he
  rw [gamma_kt_passes, List.mem_flatten] at he
  obtain ⟨l, hl, hel⟩ := he
  rw [List.mem_map] at hl
  obtain ⟨rb, hrb, hrbl⟩ := hl
  subst hrbl
  rw [List.mem_flatten] at hel
  obtain ⟨l', hl', hel'⟩ := hel
  rw [List.mem_map] at hl'
  obtain ⟨b, hbmem, hbl⟩ := hl'
  subst hbl
  obtain ⟨h1, h2⟩ := localBfsAux_mem points (gamma * rb.1) b.length b e hel'
  exact ⟨hbk rb hrb b hbmem e.u h1, hbk rb hrb b hbmem e.v h2⟩

theorem estimate_diameter_sq_isSome {points : List (List ℚ)} (hne : points ≠ []) :
    (estimate_diameter_sq points).isSome := by
  cases points with
  | nil => exact absurd rfl hne
  | cons p0 rest =>
    obtain ⟨p1, hp1⟩ := Option.isSome_iff_exists.mp
      (max_by_key_isSome (dist2 p0) (p0 :: rest) (by simp))
    obtain ⟨pm, hpm⟩ := Option.isSome_iff_exists.mp
      (max_by_key_isSome (dist2 p1) (p0 :: rest) (by simp))
    simp [estimate_diameter_sq, hp1, hpm]

/-- Embedding of `MstParams::compute_mst` (`src/spanning_tree/mod.rs`):
bound the radius ladder by `estimate_diameter` (which panics on an empty
point set, modelled `none`), build the spanner's candidate edges (the LSH
randomness supplied as passes), extract the MST with `exact_mst_krusal`,
and assert that exactly `n - 1` edges were accepted (the `assert_eq!`
failure modelled as `none`). -/
def compute_mst (points : List (List ℚ)) (gamma : ℚ)
    (passes : List (ℚ × List (List Nat))) : Option (List Edge) :=
  match estimate_diameter_sq points with
  | none => none
  | some _ =>
    if (exact_mst_krusal (gamma_kt_passes points gamma passes) points.length).length
        = points.length - 1
    then some (exact_mst_krusal (gamma_kt_passes points gamma passes) points.length)
    else none

/-- C3.  For a non-empty point set, `compute_mst` fails (assertion panic,
modelled `none`) exactly when the candidate edge graph produced by the
spanner is disconnected over the `n` points; when the candidate graph is
connected it returns a spanning tree with exactly `n - 1` edges.  The
buckets of every pass hold valid point indices, as LSH bucketing
guarantees. -/
theorem compute_mst_none_iff_disconnected (points : List (List ℚ)) (gamma : ℚ)
    (passes : List (ℚ × List (List Nat))) (hne : points ≠ [])
    (hbk : ∀ rb ∈ passes, ∀ b ∈ rb.2, ∀ x ∈ b, x < points.length) :
    (compute_mst points gamma passes = none ↔
      ¬ connectedGraph (gamma_kt_passes points gamma passes) points.length) ∧
    (connectedGraph (gamma_kt_passes points gamma passes) points.length →
      ∃ t, compute_mst points gamma passes = some t ∧
        t.length = points.length - 1) := by
  have hn : 1 ≤ points.length := by
    cases points with
    | nil => exact absurd rfl hne
    | cons p ps => simp
  have hedges := gamma_kt_edges_bounds points gamma passes hbk
  have hperm := sortEdges_perm (gamma_kt_passes points gamma passes)
  have hbs : ∀ e ∈ sortEdges (gamma_kt_passes points gamma passes),
      e.u < points.length ∧ e.v < points.length :=
    fun e hes => hedges e (hperm.mem_iff.mp hes)
  obtain ⟨w1, w2, w3, w4, _, _, _⟩ :=
    kruskal_run_spec (n := points.length)
      (sortEdges (gamma_kt_passes points gamma passes)) hbs
  have hiff : (exact_mst_krusal (gamma_kt_passes points gamma passes)
        points.length).length = points.length - 1 ↔
      connectedGraph (gamma_kt_passes points gamma passes) points.length := by
    constructor
    · intro hlen
      rw [exact_mst_krusal] at hlen
      have hroots : rootsCount ((sortEdges (gamma_kt_passes points gamma passes)).foldl
          kruskalStep (ufNew points.length, [])).1 points.length = 1 := by
        omega
      have hconnacc := (roots_eq_one_iff hn w1 w2).mp hroots
      intro u hu v hv
      exact (reach_perm hperm).mp ((w3 u v).mp (hconnacc u hu v hv))
    · intro hconn
      have hroots : rootsCount ((sortEdges (gamma_kt_passes points gamma passes)).foldl
          kruskalStep (ufNew points.length, [])).1 points.length = 1 := by
        rw [roots_eq_one_iff hn w1 w2]
        intro u hu v hv
        exact (w3 u v).mpr ((reach_perm hperm).mpr (hconn u hu v hv))
      rw [exact_mst_krusal]
      omega
  obtain ⟨est, hest⟩ := Option.isSome_iff_exists.mp (estimate_diameter_sq_isSome hne)
  have hred : compute_mst points gamma passes
      = (if (exact_mst_krusal (gamma_kt_passes points gamma passes)
            points.length).length = points.length - 1
        then some (exact_mst_krusal (gamma_kt_passes points gamma passes) points.length)
        else none) := by
    rw [compute_mst, hest]
  constructor
  · rw [hred]
    by_cases hlen : (exact_mst_krusal (gamma_kt_passes points gamma passes)
        points.length).length = points.length - 1
    · rw [if_pos hlen]
      constructor
      · intro hcon
        exact absurd hcon (by simp)
      · intro hcon
        exact absurd (hiff.mp hlen) hcon
    · rw [if_neg hlen]
      constructor
      · intro _ hconn
        exact hlen (hiff.mpr hconn)
      · intro _
        rfl
  · intro hconn
    refine ⟨_, ?_, hiff.mpr hconn⟩
    rw [hred, if_pos (hiff.mpr hconn)]

/-- Witness for C3 at the two-point set `{(0), (1)}` with one bucket pass:
the candidate graph is the single edge `(1, 0, 1)`, which is connected, and
`compute_mst` returns a one-edge tree. -/
theorem compute_mst_none_iff_disconnected_witness :
    ∃ t, compute_mst [[0], [1]] 2 [(1, [[0, 1]])] = some t ∧ t.length = 2 - 1 := by
  have hgk : gamma_kt_passes [[0], [1]] 2 [(1, [[0, 1]])] = [⟨1, 0, 1⟩] := by
    norm_num [gamma_kt_passes, local_bfs, localBfsAux, scanNear, dist2]
  have hconn : connectedGraph (gamma_kt_passes [[0], [1]] 2 [(1, [[0, 1]])]) 2 := by
    rw [hgk]
    intro u hu v hv
    have hadj : adjacent [(⟨1, 0, 1⟩ : Edge)] 0 1 :=
      ⟨⟨1, 0, 1⟩, List.mem_singleton_self _, Or.inr ⟨rfl, rfl⟩⟩
    interval_cases u <;> interval_cases v
    · exact Relation.ReflTransGen.refl
    · exact Relation.ReflTransGen.single hadj
    · exact reach_symm (Relation.ReflTransGen.single hadj)
    · exact Relation.ReflTransGen.refl
  exact (compute_mst_none_iff_disconnected [[0], [1]] 2 [(1, [[0, 1]])]
    (by decide) (by decide)).2 hconn

/-- C10.  On the empty point set, `estimate_diameter` fails (the row access
at index 0, modelled as the empty-list match, and the maxima over empty
iterators all fail), and therefore `compute_mst` — the ultrametric
construction path that calls it — fails as well; for every non-empty point
set `estimate_diameter` succeeds, so `n ≥ 1` is exactly the precondition
that makes the failure branch unreachable. -/
theorem estimate_diameter_empty_fails :
    estimate_diameter_sq [] = none ∧
    (∀ (gamma : ℚ) (passes : List (ℚ × List (List Nat))),
      compute_mst [] gamma passes = none) ∧
    (∀ points : List (List ℚ), points ≠ [] → (estimate_diameter_sq points).isSome) :=
  ⟨rfl, fun _ _ => rfl, fun _ hne => estimate_diameter_sq_isSome hne⟩

/-- Witness for C10: the failure on the empty set is definitional, and on
the concrete non-empty set `{(0)}` the estimator succeeds. -/
theorem estimate_diameter_empty_fails_witness :
    (estimate_diameter_sq [[0]]).isSome :=
  estimate_diameter_empty_fails.2.2 [[0]] (by decide)

end Flashcluster
